import Mathlib

/-!
A verification development for the `python-fs-stack` repository
(`familysearch.py`).  The client is a thin wrapper around Python 2's
`urllib` / `urllib2` / `urlparse` modules: it derives three identity
endpoints from a base URL, rewrites outgoing URLs to request JSON
responses, and runs a small session state machine
(`login` / `initialize` / `authenticate`).

Byte strings (Python 2 `str`) are modelled as `List Nat`; the external
collaborators (the HTTP opener with its cookie jar, and the
`enunciate.identity` response parser) are modelled as abstract
parameters `net` and `parse`, with the world `W` carrying cookie-jar /
server state.  Every operation also returns the list of requests handed
to the opener, so that header / method / payload claims can be stated.
-/

abbrev Bytes := List Nat

def strToBytes (s : String) : Bytes := s.data.map Char.toNat

/-- Python `str.split(sep, 1)` on byte strings: split at the first
occurrence of `c`, `none` when `c` does not occur. -/
def splitOnce (c : Nat) : Bytes → Option (Bytes × Bytes)
  | [] => none
  | b :: rest =>
    if b = c then some ([], rest)
    else
      match splitOnce c rest with
      | none => none
      | some (pre, post) => some (b :: pre, post)

/-- Python `str.split(sep)`: split at every occurrence of `c`. -/
def splitAll (c : Nat) : Bytes → List Bytes
  | [] => [[]]
  | b :: rest =>
    if b = c then [] :: splitAll c rest
    else
      match splitAll c rest with
      | [] => [[b]]
      | r :: rs => (b :: r) :: rs

/-- Python `sep.join(parts)` for a one-byte separator. -/
def joinSep (c : Nat) : List Bytes → Bytes
  | [] => []
  | [x] => x
  | x :: xs => x ++ c :: joinSep c xs

namespace urllib

/-- value of a hexadecimal digit byte (`_hexdig` of Python 2 `urllib`:
`0-9`, `a-f`, `A-F`). -/
def hexVal (b : Nat) : Option Nat :=
  if 48 ≤ b ∧ b ≤ 57 then some (b - 48)
  else if 65 ≤ b ∧ b ≤ 70 then some (b - 55)
  else if 97 ≤ b ∧ b ≤ 102 then some (b - 87)
  else none

/-- decoding of one `%`-delimited segment inside `urllib.unquote`: the
first two bytes are read as a hex escape when possible, otherwise the
`%` is kept literally. -/
def decSeg (item : Bytes) : Bytes :=
  match item with
  | h1 :: h2 :: rest =>
    match hexVal h1, hexVal h2 with
    | some a, some b => (16 * a + b) :: rest
    | _, _ => 37 :: item
  | _ => 37 :: item

/-- Python 2 `urllib.unquote`: split on `%` (byte 37), pass the first
piece through, decode the head of every later piece. -/
def unquote (s : Bytes) : Bytes :=
  match splitAll 37 s with
  | [] => []
  | first :: items => first ++ items.flatMap decSeg

/-- bytes never quoted by `urllib.quote` (`always_safe`: letters,
digits, `_`, `.`, `-`). -/
def isAlwaysSafe (b : Nat) : Bool :=
  (65 ≤ b && b ≤ 90) || (97 ≤ b && b ≤ 122) || (48 ≤ b && b ≤ 57) ||
    b == 95 || b == 46 || b == 45

/-- upper-case hexadecimal digit, as produced by `_safe_map` (`'%%%02X' % i`). -/
def hexDigitUpper (n : Nat) : Nat := if n < 10 then 48 + n else 55 + n

/-- per-byte action of `urllib.quote_plus` with empty `safe`, the form
used by `urlencode`: safe bytes pass through, space becomes `+`, every
other byte becomes `%XX`. -/
def quoteByte (b : Nat) : Bytes :=
  if isAlwaysSafe b then [b]
  else if b = 32 then [43]
  else [37, hexDigitUpper (b / 16 % 16), hexDigitUpper (b % 16)]

/-- Python 2 `urllib.quote_plus` with empty `safe`. -/
def quote_plus (s : Bytes) : Bytes := s.flatMap quoteByte

/-- encoding of one pair inside `urlencode`: `quote_plus(k) + '=' + quote_plus(v)`. -/
def encPair (kv : Bytes × Bytes) : Bytes := quote_plus kv.1 ++ 61 :: quote_plus kv.2

/-- Python 2 `urllib.urlencode` (`doseq=0`) on an association list:
`'&'.join(quote_plus(k) + '=' + quote_plus(v))`. -/
def urlencode (query : List (Bytes × Bytes)) : Bytes :=
  joinSep 38 (query.map encPair)

/-- bytes that can occur in the output of `quote_plus`: safe bytes, `+`,
`%`, and hexadecimal digit characters. -/
def qpOK (x : Nat) : Bool :=
  isAlwaysSafe x || x == 43 || x == 37 || (48 ≤ x && x ≤ 57) || (65 ≤ x && x ≤ 70)

/-- bytes that can occur in the output of `urlencode`: `quote_plus`
output bytes plus the separators `=` and `&`. -/
def ueOK (x : Nat) : Bool := qpOK x || x == 61 || x == 38

end urllib

namespace urlparse

/-- the five components returned by `urlparse.urlsplit`. -/
structure SplitResult where
  scheme : Bytes
  netloc : Bytes
  path : Bytes
  query : Bytes
  fragment : Bytes
deriving DecidableEq

/-- the `.replace('+', ' ')` step of `parse_qsl`. -/
def plusToSpace (b : Nat) : Nat := if b = 43 then 32 else b

/-- the per-chunk loop body of `parse_qsl`: drop empty chunks, drop
chunks with no `=` or an empty value (`keep_blank_values=0`,
`strict_parsing=0`), replace `+` by space and unquote name and value. -/
def qslPair (nv : Bytes) : Option (Bytes × Bytes) :=
  if nv = [] then none
  else
    match splitOnce 61 nv with
    | none => none
    | some (n, v) =>
      if v = [] then none
      else some (urllib.unquote (n.map plusToSpace), urllib.unquote (v.map plusToSpace))

/-- Python 2 `urlparse.parse_qsl` with default flags: split the query on
`&` then `;`, then run the loop body on every chunk. -/
def parse_qsl (qs : Bytes) : List (Bytes × Bytes) :=
  ((splitAll 38 qs).flatMap (splitAll 59)).filterMap qslPair

/-- the `scheme_chars` set of Python 2 `urlparse`: letters, digits, `+`, `-`, `.`. -/
def isSchemeChar (b : Nat) : Bool :=
  (65 ≤ b && b ≤ 90) || (97 ≤ b && b ≤ 122) || (48 ≤ b && b ≤ 57) ||
    b == 43 || b == 45 || b == 46

def isDigitByte (b : Nat) : Bool := 48 ≤ b && b ≤ 57

/-- Python `str.lower` on a single byte. -/
def lowerByte (b : Nat) : Nat := if 65 ≤ b ∧ b ≤ 90 then b + 32 else b

/-- bytes that do not end the netloc in `_splitnetloc` (`/`, `?`, `#`). -/
def notDelim (b : Nat) : Bool := !(b == 47 || b == 63 || b == 35)

/-- the invalid-IPv6 check of `urlsplit`: `[` and `]` presence differs. -/
def badBrackets (netloc : Bytes) : Bool := netloc.contains 91 != netloc.contains 93

def httpBytes : Bytes := [104, 116, 116, 112]

/-- the fragment / query splitting tail of `urlsplit`: split off the
fragment at the first `#` (when present), then the query at the first
`?` (when present). -/
def splitQF (scheme netloc u : Bytes) : SplitResult :=
  match splitOnce 35 u with
  | some (u1, fragment) =>
    (match splitOnce 63 u1 with
     | some (path, query) => ⟨scheme, netloc, path, query, fragment⟩
     | none => ⟨scheme, netloc, u1, [], fragment⟩)
  | none =>
    match splitOnce 63 u with
    | some (path, query) => ⟨scheme, netloc, path, query, []⟩
    | none => ⟨scheme, netloc, u, [], []⟩

/-- the part of `urlsplit` after scheme handling: `_splitnetloc` when the
rest starts with `//` (with the IPv6 bracket `ValueError` modelled as
`none`), then fragment / query splitting. -/
def parseAfterScheme (scheme u : Bytes) : Option SplitResult :=
  if u.take 2 = [47, 47] then
    if badBrackets ((u.drop 2).takeWhile notDelim) then none
    else some (splitQF scheme ((u.drop 2).takeWhile notDelim) ((u.drop 2).dropWhile notDelim))
  else some (splitQF scheme [] u)

/-- Python 2 `urlparse.urlsplit` with `allow_fragments=True`: extract a
scheme when the text before the first `:` is `http`, or consists of
scheme characters and the rest is not a pure digit string (the
port-number heuristic); `none` models the `ValueError` on an invalid
IPv6 netloc. -/
def urlsplit (url : Bytes) : Option SplitResult :=
  match splitOnce 58 url with
  | none => parseAfterScheme [] url
  | some (pre, post) =>
    if pre = [] then parseAfterScheme [] url
    else if pre = httpBytes then parseAfterScheme httpBytes post
    else if pre.all isSchemeChar then
      if post = [] ∨ post.any (fun b => !isDigitByte b) then
        parseAfterScheme (pre.map lowerByte) post
      else parseAfterScheme [] url
    else parseAfterScheme [] url

/-- URLs of the shape `<scheme-chars>:<digits>` (with the token before
the colon different from `http`), such as `foo:80`: `urlsplit` treats
the colon as a port separator and extracts no scheme, but appending a
query makes the text after the colon non-numeric, so the rewritten URL
re-parses with a scheme. -/
def portLookalike (url : Bytes) : Bool :=
  match splitOnce 58 url with
  | none => false
  | some (pre, post) =>
    decide (pre ≠ []) && decide (pre ≠ httpBytes) && pre.all isSchemeChar &&
      decide (post ≠ []) && post.all isDigitByte

/-- Python 2 `urlparse.urlunsplit`. -/
def urlunsplit (p : SplitResult) : Bytes :=
  let u1 :=
    if p.netloc ≠ [] ∨ p.path.take 2 = [47, 47] then
      [47, 47] ++ p.netloc ++
        (if p.path ≠ [] ∧ p.path.take 1 ≠ [47] then 47 :: p.path else p.path)
    else p.path
  let u2 := if p.scheme ≠ [] then p.scheme ++ 58 :: u1 else u1
  let u3 := if p.query ≠ [] then u2 ++ 63 :: p.query else u2
  if p.fragment ≠ [] then u3 ++ 35 :: p.fragment else u3

end urlparse

namespace FamilySearch

def dataFormatK : Bytes := strToBytes "dataFormat"

def appJsonV : Bytes := strToBytes "application/json"

/-- model of `FamilySearch._add_json_format`: split the URL, parse the query into
pairs, append `(dataFormat, application/json)`, re-encode and
reassemble.  `none` models the propagated `ValueError` of `urlsplit`. -/
def add_json_format (url : Bytes) : Option Bytes :=
  match urlparse.urlsplit url with
  | none => none
  | some parts =>
    let query_parts := urlparse.parse_qsl parts.query ++ [(dataFormatK, appJsonV)]
    some (urlparse.urlunsplit
      ⟨parts.scheme, parts.netloc, parts.path, urllib.urlencode query_parts, parts.fragment⟩)

inductive Method where
  | GET : Method
  | POST : Method
deriving DecidableEq

/-- one HTTP request handed to the `urllib2` opener. -/
structure Request where
  url : Bytes
  data : Option Bytes
  userAgent : Bytes
deriving DecidableEq

/-- the method of a request: `urllib2.Request` issues a POST exactly when a body is supplied. -/
def Request.method (r : Request) : Method :=
  match r.data with
  | none => .GET
  | some _ => .POST

/-- the fields of a `FamilySearch` instance (the opener / cookie jar
lives in the abstract world `W`). -/
structure FSState where
  agent : Bytes
  key : Bytes
  session : Option Bytes
  base : Bytes
  login_url : Bytes
  initialize_url : Bytes
  authenticate_url : Bytes
deriving DecidableEq

/-- errors an operation can raise: the `ValueError` propagated from URL
rewriting, or an error reported by an external collaborator (transport
or response parser). -/
inductive FSErr (ε : Type) where
  | urlError : FSErr ε
  | ext : ε → FSErr ε
deriving DecidableEq

/-- outcome of an operation: the returned value or the raised error,
together with the object state and the external world at that point. -/
inductive OpResult (ε W α : Type) where
  | ok : α → FSState → W → OpResult ε W α
  | err : FSErr ε → FSState → W → OpResult ε W α

def OpResult.state {ε W α : Type} : OpResult ε W α → FSState
  | .ok _ s _ => s
  | .err _ s _ => s

/-- the outcome with the object state erased: returned value / raised
error plus final world. -/
def OpResult.shape {ε W α : Type} : OpResult ε W α → Except (FSErr ε × W) (α × W)
  | .ok a _ w => .ok (a, w)
  | .err e _ w => .error (e, w)

variable {ε W : Type} (net : W → Request → Except ε (W × Bytes))
  (parse : Bytes → Except ε Bytes)

/-- model of `FamilySearch._request`: rewrite the URL, build the request with the
User-Agent header attached, hand it to the opener.  The second component
is the list of requests actually dispatched. -/
def fsRequest (fs : FSState) (w : W) (url : Bytes) (data : Option Bytes) :
    Except (FSErr ε) (W × Bytes) × List Request :=
  match add_json_format url with
  | none => (.error .urlError, [])
  | some u =>
    let r : Request := ⟨u, data, fs.agent⟩
    match net w r with
    | .error e => (.error (.ext e), [r])
    | .ok res => (.ok res, [r])

/-- the credentials payload of `login`:
`urlencode({'username': ..., 'password': ..., 'key': self.key})`. -/
def loginBody (fs : FSState) (username password : Bytes) : Bytes :=
  urllib.urlencode
    [(strToBytes "username", username), (strToBytes "password", password),
      (strToBytes "key", fs.key)]

/-- model of `FamilySearch.login`. -/
def login (fs : FSState) (w : W) (username password : Bytes) :
    OpResult ε W Bytes × List Request :=
  match fsRequest net fs w fs.login_url (some (loginBody fs username password)) with
  | (.error e, tr) => (.err e fs w, tr)
  | (.ok (w', resp), tr) =>
    match parse resp with
    | .error e => (.err (.ext e) fs w', tr)
    | .ok sid => (.ok sid { fs with session := some sid } w', tr)

/-- the payload of `initialize`: `urlencode({'key': self.key})`. -/
def initializeBody (fs : FSState) : Bytes :=
  urllib.urlencode [(strToBytes "key", fs.key)]

/-- model of `FamilySearch.initialize` (named `initializeSession` here). -/
def initializeSession (fs : FSState) (w : W) : OpResult ε W Bytes × List Request :=
  match fsRequest net fs w fs.initialize_url (some (initializeBody fs)) with
  | (.error e, tr) => (.err e fs w, tr)
  | (.ok (w', resp), tr) =>
    match parse resp with
    | .error e => (.err (.ext e) fs w', tr)
    | .ok sid => (.ok sid { fs with session := some sid } w', tr)

/-- the payload of `authenticate`:
`urlencode({'username': ..., 'password': ...})` (no developer key). -/
def authenticateBody (username password : Bytes) : Bytes :=
  urllib.urlencode
    [(strToBytes "username", username), (strToBytes "password", password)]

/-- model of `FamilySearch.authenticate`. -/
def authenticate (fs : FSState) (w : W) (username password : Bytes) :
    OpResult ε W Bytes × List Request :=
  match fsRequest net fs w fs.authenticate_url (some (authenticateBody username password)) with
  | (.error e, tr) => (.err e fs w, tr)
  | (.ok (w', resp), tr) =>
    match parse resp with
    | .error e => (.err (.ext e) fs w', tr)
    | .ok sid => (.ok sid { fs with session := some sid } w', tr)

/-- the field assignments of `FamilySearch.__init__` (before the
optional construction-time `login`). -/
def initState (agent key : Bytes) (session : Option Bytes) (base : Bytes) : FSState :=
  let identity_base := base ++ strToBytes "/identity/v2/"
  { agent := agent ++ strToBytes " Python-FS-Stack/" ++ strToBytes "0.1"
    key := key
    session := session
    base := base
    login_url := identity_base ++ strToBytes "login"
    initialize_url := identity_base ++ strToBytes "initialize"
    authenticate_url := identity_base ++ strToBytes "authenticate" }

/-- Python truthiness of an optional string: `None` and `''` are falsy. -/
def truthy : Option Bytes → Bool
  | none => false
  | some s => !s.isEmpty

/-- model of `FamilySearch.__init__`: assign the fields, then run `login`
immediately when both `username` and `password` are truthy. -/
def construct (agent key : Bytes) (username password session : Option Bytes)
    (base : Bytes) (w : W) : OpResult ε W Unit × List Request :=
  let fs := initState agent key session base
  if truthy username && truthy password then
    match login net parse fs w (username.getD []) (password.getD []) with
    | (.ok _ fs' w', tr) => (.ok () fs' w', tr)
    | (.err e fs' w', tr) => (.err e fs' w', tr)
  else (.ok () fs w, [])

/-- the construction-time fields that the three session operations never
touch: everything except `session`. -/
def FSState.frameEq (a b : FSState) : Prop :=
  a.agent = b.agent ∧ a.key = b.key ∧ a.base = b.base ∧
    a.login_url = b.login_url ∧ a.initialize_url = b.initialize_url ∧
    a.authenticate_url = b.authenticate_url

end FamilySearch

/-- a transport stub for concrete examples: always replies `RESP`
without changing the world. -/
def okNet : Unit → FamilySearch.Request → Except Unit (Unit × Bytes) :=
  fun w _ => .ok (w, strToBytes "RESP")

/-- a transport stub for concrete examples: always fails. -/
def failNet : Unit → FamilySearch.Request → Except Unit (Unit × Bytes) :=
  fun _ _ => .error ()

/-- a parser stub for concrete examples: always returns session id `S123`. -/
def okParse : Bytes → Except Unit Bytes := fun _ => .ok (strToBytes "S123")

/-- a parser stub for concrete examples: always fails. -/
def failParse : Bytes → Except Unit Bytes := fun _ => .error ()

/-- a concrete client state for examples, as built by the constructor
with the default base URL. -/
def fs0 : FamilySearch.FSState :=
  FamilySearch.initState (strToBytes "TestApp/1.0") (strToBytes "KEY") none
    (strToBytes "http://www.dev.usys.org")

/-! ## Lemmas about the splitting primitives -/

theorem splitOnce_eq_none {c : Nat} {l : Bytes} : splitOnce c l = none ↔ c ∉ l := by
  induction l with
  | nil => simp [splitOnce]
  | cons b rest ih =>
    simp only [splitOnce]
    by_cases hb : b = c
    · subst hb; simp
    · simp only [if_neg hb, List.mem_cons, not_or]
      cases h : splitOnce c rest with
      | none =>
        exact ⟨fun _ => ⟨fun hc => hb hc.symm, ih.mp h⟩, fun _ => rfl⟩
      | some pr =>
        have hcr : c ∈ rest := by
          by_contra hc
          rw [ih.mpr hc] at h
          cases h
        exact ⟨fun hcontra => Option.noConfusion hcontra, fun hnm => absurd hcr hnm.2⟩

theorem splitOnce_eq_some {c : Nat} {l a b : Bytes} :
    splitOnce c l = some (a, b) ↔ l = a ++ c :: b ∧ c ∉ a := by
  induction l generalizing a b with
  | nil =>
    simp only [splitOnce]
    constructor
    · intro h; cases h
    · rintro ⟨h, -⟩; cases a <;> simp at h
  | cons x rest ih =>
    simp only [splitOnce]
    by_cases hx : x = c
    · subst hx
      simp only [if_pos rfl]
      constructor
      · rintro h
        injection h with h
        injection h with h1 h2
        subst h1; subst h2; simp
      · rintro ⟨hl, hca⟩
        cases a with
        | nil => simp at hl; simp [hl]
        | cons y a' =>
          simp at hl
          exact absurd (hl.1 ▸ List.mem_cons_self _ _) hca
    · simp only [if_neg hx]
      cases h : splitOnce c rest with
      | none =>
        constructor
        · intro hcontra; cases hcontra
        · rintro ⟨hl, hca⟩
          cases a with
          | nil => simp at hl; exact absurd hl.1 hx
          | cons y a' =>
            simp at hl
            obtain ⟨rfl, hrest⟩ := hl
            have : splitOnce c rest = some (a', b) :=
              ih.mpr ⟨hrest, fun hm => hca (List.mem_cons_of_mem _ hm)⟩
            simp [this] at h
      | some pr =>
        obtain ⟨a0, b0⟩ := pr
        have hr := ih.mp h
        constructor
        · intro heq
          injection heq with heq
          injection heq with h1 h2
          subst h1; subst h2
          refine ⟨by simp [hr.1], ?_⟩
          intro hm
          rcases List.mem_cons.mp hm with h' | h'
          · exact hx h'.symm
          · exact hr.2 h'
        · rintro ⟨hl, hca⟩
          cases a with
          | nil => simp at hl; exact absurd hl.1 hx
          | cons y a' =>
            simp at hl
            obtain ⟨rfl, hrest⟩ := hl
            have : splitOnce c rest = some (a', b) :=
              ih.mpr ⟨hrest, fun hm => hca (List.mem_cons_of_mem _ hm)⟩
            rw [h] at this
            injection this with this
            injection this with h1 h2
            simp [h1, h2]

theorem splitOnce_append {c : Nat} {a b : Bytes} (ha : c ∉ a) :
    splitOnce c (a ++ c :: b) = some (a, b) :=
  splitOnce_eq_some.mpr ⟨rfl, ha⟩

theorem splitOnce_append_left {c : Nat} {x y : Bytes} (hx : c ∉ x) :
    splitOnce c (x ++ y) = (splitOnce c y).map fun ab => (x ++ ab.1, ab.2) := by
  induction x with
  | nil =>
    cases h : splitOnce c y with
    | none => simp [h]
    | some pr => simp [h]
  | cons z zs ih =>
    have hxc : z ≠ c := fun h => hx (h ▸ List.mem_cons_self _ _)
    have hx' : c ∉ zs := fun h => hx (List.mem_cons_of_mem _ h)
    show splitOnce c (z :: (zs ++ y)) = _
    simp only [splitOnce, if_neg hxc, ih hx']
    cases splitOnce c y with
    | none => rfl
    | some pr => rfl

theorem splitAll_ne_nil {c : Nat} {l : Bytes} : splitAll c l ≠ [] := by
  cases l with
  | nil => simp [splitAll]
  | cons b rest =>
    simp only [splitAll]
    by_cases hb : b = c
    · simp [hb]
    · simp only [if_neg hb]
      cases h : splitAll c rest <;> simp

theorem splitAll_cons_eq {c : Nat} {l : Bytes} : splitAll c (c :: l) = [] :: splitAll c l := by
  simp [splitAll]

theorem splitAll_cons_ne {c b : Nat} {l : Bytes} (h : b ≠ c) :
    ∃ r rs, splitAll c l = r :: rs ∧ splitAll c (b :: l) = (b :: r) :: rs := by
  cases hs : splitAll c l with
  | nil => exact absurd hs splitAll_ne_nil
  | cons r rs =>
    refine ⟨r, rs, rfl, ?_⟩
    simp [splitAll, if_neg h, hs]

theorem splitAll_no_sep {c : Nat} {l : Bytes} (h : c ∉ l) : splitAll c l = [l] := by
  induction l with
  | nil => simp [splitAll]
  | cons b rest ih =>
    have hb : b ≠ c := fun hb => h (hb ▸ List.mem_cons_self _ _)
    have h' : c ∉ rest := fun hm => h (List.mem_cons_of_mem _ hm)
    simp [splitAll, if_neg hb, ih h']

theorem splitAll_append_no_sep {c : Nat} {x l : Bytes} (hx : c ∉ x) :
    ∃ r rs, splitAll c l = r :: rs ∧ splitAll c (x ++ l) = (x ++ r) :: rs := by
  induction x with
  | nil =>
    cases hs : splitAll c l with
    | nil => exact absurd hs splitAll_ne_nil
    | cons r rs => exact ⟨r, rs, rfl, by simpa using hs⟩
  | cons y ys ih =>
    have hy : y ≠ c := fun h => hx (h ▸ List.mem_cons_self _ _)
    have hx' : c ∉ ys := fun h => hx (List.mem_cons_of_mem _ h)
    obtain ⟨r, rs, h1, h2⟩ := ih hx'
    refine ⟨r, rs, h1, ?_⟩
    have h2' : splitAll c (ys.append l) = (ys ++ r) :: rs := h2
    simp only [List.cons_append, splitAll, if_neg hy, h2']

theorem splitAll_join {c : Nat} {parts : List Bytes} (hne : parts ≠ [])
    (h : ∀ p ∈ parts, c ∉ p) : splitAll c (joinSep c parts) = parts := by
  induction parts with
  | nil => exact absurd rfl hne
  | cons x xs ih =>
    cases xs with
    | nil => simpa [joinSep] using splitAll_no_sep (h x (List.mem_cons_self _ _))
    | cons y ys =>
      have hx : c ∉ x := h x (List.mem_cons_self _ _)
      have hrec : splitAll c (joinSep c (y :: ys)) = y :: ys :=
        ih (by simp) (fun p hp => h p (List.mem_cons_of_mem _ hp))
      obtain ⟨r, rs, h1, h2⟩ := splitAll_append_no_sep (l := c :: joinSep c (y :: ys)) hx
      rw [splitAll_cons_eq, hrec] at h1
      injection h1 with h1a h1b
      show splitAll c (x ++ c :: joinSep c (y :: ys)) = _
      rw [h2, ← h1a, ← h1b]
      simp

theorem mem_splitAll {c : Nat} {l p : Bytes} (hp : p ∈ splitAll c l) :
    ∀ x ∈ p, x ∈ l := by
  induction l generalizing p with
  | nil =>
    simp [splitAll] at hp
    subst hp; simp
  | cons b rest ih =>
    by_cases hb : b = c
    · subst hb
      rw [splitAll_cons_eq] at hp
      rcases List.mem_cons.mp hp with h | h
      · subst h; simp
      · exact fun x hx => List.mem_cons_of_mem _ (ih h x hx)
    · obtain ⟨r, rs, h1, h2⟩ := splitAll_cons_ne (l := rest) hb
      rw [h2] at hp
      rcases List.mem_cons.mp hp with h | h
      · subst h
        intro x hx
        rcases List.mem_cons.mp hx with h' | h'
        · simp [h']
        · exact List.mem_cons_of_mem _ (ih (h1 ▸ List.mem_cons_self _ _) x h')
      · exact fun x hx =>
          List.mem_cons_of_mem _ (ih (h1 ▸ List.mem_cons_of_mem _ h) x hx)

/-! ## Lemmas about `unquote`, `quote_plus`, `urlencode`, `parse_qsl` -/

theorem hexVal_lt {b v : Nat} (h : urllib.hexVal b = some v) : v < 16 := by
  unfold urllib.hexVal at h
  split at h
  · injection h with h; omega
  · split at h
    · injection h with h; omega
    · split at h
      · injection h with h; omega
      · cases h

theorem hexVal_ne37 {b v : Nat} (h : urllib.hexVal b = some v) : b ≠ 37 := by
  intro hb
  subst hb
  simp [urllib.hexVal] at h

theorem unquote_cons_ne {b : Nat} {l : Bytes} (h : b ≠ 37) :
    urllib.unquote (b :: l) = b :: urllib.unquote l := by
  obtain ⟨r, rs, h1, h2⟩ := splitAll_cons_ne (c := 37) (l := l) h
  simp [urllib.unquote, h1, h2]

theorem unquote_pct (l : Bytes) : ∃ seg segs, splitAll 37 l = seg :: segs ∧
    urllib.unquote (37 :: l) = urllib.decSeg seg ++ segs.flatMap urllib.decSeg ∧
    urllib.unquote l = seg ++ segs.flatMap urllib.decSeg := by
  cases h : splitAll 37 l with
  | nil => exact absurd h splitAll_ne_nil
  | cons seg segs =>
    refine ⟨seg, segs, rfl, ?_, ?_⟩
    · have h' : splitAll 37 (37 :: l) = [] :: seg :: segs := by
        rw [splitAll_cons_eq, h]
      simp [urllib.unquote, h']
    · simp [urllib.unquote, h]

theorem unquote_pct_valid {h1 h2 a v : Nat} {l : Bytes}
    (ha : urllib.hexVal h1 = some a) (hv : urllib.hexVal h2 = some v) :
    urllib.unquote (37 :: h1 :: h2 :: l) = (16 * a + v) :: urllib.unquote l := by
  obtain ⟨r, rs, hr1, hr2⟩ := splitAll_cons_ne (c := 37) (l := l) (hexVal_ne37 hv)
  obtain ⟨r', rs', hr1', hr2'⟩ := splitAll_cons_ne (c := 37) (l := h2 :: l) (hexVal_ne37 ha)
  rw [hr2] at hr1'
  injection hr1' with e1 e2
  subst e1; subst e2
  obtain ⟨seg, segs, hs1, hs2, _⟩ := unquote_pct (h1 :: h2 :: l)
  rw [hr2'] at hs1
  injection hs1 with e1 e2
  subst e1; subst e2
  rw [hs2]
  have : urllib.decSeg (h1 :: h2 :: r) = (16 * a + v) :: r := by
    simp [urllib.decSeg, ha, hv]
  rw [this]
  have hu : urllib.unquote l = r ++ rs.flatMap urllib.decSeg := by
    simp [urllib.unquote, hr1]
  rw [hu]
  simp

theorem decSeg_cases (item : Bytes) :
    (∃ h1 h2 rest a v, item = h1 :: h2 :: rest ∧ urllib.hexVal h1 = some a ∧
      urllib.hexVal h2 = some v ∧ urllib.decSeg item = (16 * a + v) :: rest) ∨
    urllib.decSeg item = 37 :: item := by
  cases item with
  | nil => right; rfl
  | cons h1 t =>
    cases t with
    | nil => right; rfl
    | cons h2 rest =>
      cases ha : urllib.hexVal h1 with
      | none => right; simp [urllib.decSeg, ha]
      | some a =>
        cases hv : urllib.hexVal h2 with
        | none => right; simp [urllib.decSeg, ha, hv]
        | some v =>
          exact .inl ⟨h1, h2, rest, a, v, rfl, ha, hv, by simp [urllib.decSeg, ha, hv]⟩

theorem decSeg_ne_nil (item : Bytes) : urllib.decSeg item ≠ [] := by
  rcases decSeg_cases item with ⟨h1, h2, rest, a, v, _, _, _, heq⟩ | heq <;> simp [heq]

theorem decSeg_lt {item : Bytes} (h : ∀ b ∈ item, b < 256) :
    ∀ b ∈ urllib.decSeg item, b < 256 := by
  rcases decSeg_cases item with ⟨h1, h2, rest, a, v, hitem, ha, hv, heq⟩ | heq
  · rw [heq]
    intro b hb
    rcases List.mem_cons.mp hb with h' | h'
    · have := hexVal_lt ha
      have := hexVal_lt hv
      omega
    · exact h b (hitem ▸ List.mem_cons_of_mem _ (List.mem_cons_of_mem _ h'))
  · rw [heq]
    intro b hb
    rcases List.mem_cons.mp hb with h' | h'
    · omega
    · exact h b h'

theorem unquote_lt {s : Bytes} (h : ∀ b ∈ s, b < 256) :
    ∀ b ∈ urllib.unquote s, b < 256 := by
  unfold urllib.unquote
  cases hs : splitAll 37 s with
  | nil => simp
  | cons first items =>
    intro b hb
    rcases List.mem_append.mp hb with h' | h'
    · exact h b (mem_splitAll (hs ▸ List.mem_cons_self _ _) b h')
    · obtain ⟨item, hitem, hbi⟩ := List.mem_flatMap.mp h'
      refine decSeg_lt (fun x hx => h x ?_) b hbi
      exact mem_splitAll (hs ▸ List.mem_cons_of_mem _ hitem) x hx

theorem unquote_ne_nil {s : Bytes} (h : s ≠ []) : urllib.unquote s ≠ [] := by
  cases s with
  | nil => exact absurd rfl h
  | cons b t =>
    by_cases hb : b = 37
    · subst hb
      obtain ⟨seg, segs, _, h2, _⟩ := unquote_pct t
      rw [h2]
      have := decSeg_ne_nil seg
      intro hcontra
      rcases List.append_eq_nil.mp hcontra with ⟨h3, -⟩
      exact this h3
    · rw [unquote_cons_ne hb]
      simp

theorem isAlwaysSafe_iff {b : Nat} : urllib.isAlwaysSafe b = true ↔
    (65 ≤ b ∧ b ≤ 90) ∨ (97 ≤ b ∧ b ≤ 122) ∨ (48 ≤ b ∧ b ≤ 57) ∨ b = 95 ∨ b = 46 ∨ b = 45 := by
  simp only [urllib.isAlwaysSafe, Bool.or_eq_true, Bool.and_eq_true, decide_eq_true_eq,
    beq_iff_eq]
  tauto

theorem hexVal_hexDigitUpper {n : Nat} (h : n < 16) :
    urllib.hexVal (urllib.hexDigitUpper n) = some n := by
  unfold urllib.hexVal urllib.hexDigitUpper
  by_cases hn : n < 10
  · rw [if_pos hn, if_pos (by omega)]
    congr 1
    omega
  · rw [if_neg hn, if_neg (by omega), if_pos (by omega)]
    congr 1
    omega

theorem hexDigitUpper_range {n : Nat} (h : n < 16) :
    (48 ≤ urllib.hexDigitUpper n ∧ urllib.hexDigitUpper n ≤ 57) ∨
      (65 ≤ urllib.hexDigitUpper n ∧ urllib.hexDigitUpper n ≤ 70) := by
  unfold urllib.hexDigitUpper
  by_cases hn : n < 10
  · rw [if_pos hn]; omega
  · rw [if_neg hn]; omega

theorem plusToSpace_of_ne {b : Nat} (h : b ≠ 43) : urlparse.plusToSpace b = b := by
  simp [urlparse.plusToSpace, h]

theorem unquote_map_quote {s : Bytes} (h : ∀ b ∈ s, b < 256) :
    urllib.unquote ((urllib.quote_plus s).map urlparse.plusToSpace) = s := by
  induction s with
  | nil => rfl
  | cons b t ih =>
    have hb : b < 256 := h b (List.mem_cons_self _ _)
    have ht : ∀ x ∈ t, x < 256 := fun x hx => h x (List.mem_cons_of_mem _ hx)
    show urllib.unquote ((urllib.quoteByte b ++ urllib.quote_plus t).map urlparse.plusToSpace) = b :: t
    rw [List.map_append]
    by_cases hsafe : urllib.isAlwaysSafe b
    · have hb43 : b ≠ 43 := by
        have := isAlwaysSafe_iff.mp hsafe
        omega
      have hb37 : b ≠ 37 := by
        have := isAlwaysSafe_iff.mp hsafe
        omega
      rw [urllib.quoteByte, if_pos hsafe]
      show urllib.unquote (urlparse.plusToSpace b :: (urllib.quote_plus t).map urlparse.plusToSpace) = b :: t
      rw [plusToSpace_of_ne hb43, unquote_cons_ne hb37, ih ht]
    · by_cases h32 : b = 32
      · subst h32
        rw [urllib.quoteByte, if_neg hsafe, if_pos rfl]
        show urllib.unquote (urlparse.plusToSpace 43 :: (urllib.quote_plus t).map urlparse.plusToSpace) = 32 :: t
        have : urlparse.plusToSpace 43 = 32 := by simp [urlparse.plusToSpace]
        rw [this, unquote_cons_ne (by omega), ih ht]
      · rw [urllib.quoteByte, if_neg hsafe, if_neg h32]
        have hd1 : b / 16 % 16 < 16 := Nat.mod_lt _ (by omega)
        have hd2 : b % 16 < 16 := Nat.mod_lt _ (by omega)
        have hne1 : urllib.hexDigitUpper (b / 16 % 16) ≠ 43 := by
          rcases hexDigitUpper_range hd1 with h' | h' <;> omega
        have hne2 : urllib.hexDigitUpper (b % 16) ≠ 43 := by
          rcases hexDigitUpper_range hd2 with h' | h' <;> omega
        show urllib.unquote (urlparse.plusToSpace 37 :: urlparse.plusToSpace (urllib.hexDigitUpper (b / 16 % 16)) :: urlparse.plusToSpace (urllib.hexDigitUpper (b % 16)) :: (urllib.quote_plus t).map urlparse.plusToSpace) = b :: t
        rw [plusToSpace_of_ne (by omega), plusToSpace_of_ne hne1, plusToSpace_of_ne hne2,
          unquote_pct_valid (hexVal_hexDigitUpper hd1) (hexVal_hexDigitUpper hd2), ih ht]
        congr 1
        omega

theorem quoteByte_qpOK {b : Nat} : ∀ x ∈ urllib.quoteByte b, urllib.qpOK x = true := by
  intro x hx
  unfold urllib.quoteByte at hx
  by_cases hsafe : urllib.isAlwaysSafe b
  · rw [if_pos hsafe] at hx
    rcases List.mem_cons.mp hx with h' | h'
    · subst h'
      simp [urllib.qpOK, hsafe]
    · cases h'
  · rw [if_neg hsafe] at hx
    by_cases h32 : b = 32
    · rw [if_pos h32] at hx
      rcases List.mem_cons.mp hx with h' | h'
      · subst h'; rfl
      · cases h'
    · rw [if_neg h32] at hx
      have hd1 : b / 16 % 16 < 16 := Nat.mod_lt _ (by omega)
      have hd2 : b % 16 < 16 := Nat.mod_lt _ (by omega)
      rcases List.mem_cons.mp hx with h' | h'
      · subst h'; rfl
      · rcases List.mem_cons.mp h' with h'' | h''
        · subst h''
          rcases hexDigitUpper_range hd1 with hr | hr <;>
            · simp [urllib.qpOK, urllib.isAlwaysSafe]
              omega
        · rcases List.mem_cons.mp h'' with h3 | h3
          · subst h3
            rcases hexDigitUpper_range hd2 with hr | hr <;>
              · simp [urllib.qpOK, urllib.isAlwaysSafe]
                omega
          · cases h3

theorem quote_plus_qpOK {s : Bytes} : ∀ x ∈ urllib.quote_plus s, urllib.qpOK x = true := by
  intro x hx
  obtain ⟨b, _, hxb⟩ := List.mem_flatMap.mp hx
  exact quoteByte_qpOK x hxb

theorem not_mem_quote_plus {s : Bytes} {c : Nat} (hc : urllib.qpOK c = false) :
    c ∉ urllib.quote_plus s := fun h => by
  have := quote_plus_qpOK c h
  rw [hc] at this
  cases this

theorem quoteByte_ne_nil (b : Nat) : urllib.quoteByte b ≠ [] := by
  unfold urllib.quoteByte
  by_cases hsafe : urllib.isAlwaysSafe b
  · simp [if_pos hsafe]
  · rw [if_neg hsafe]
    by_cases h32 : b = 32 <;> simp [h32]

theorem quote_plus_ne_nil {s : Bytes} (h : s ≠ []) : urllib.quote_plus s ≠ [] := by
  cases s with
  | nil => exact absurd rfl h
  | cons b t =>
    show urllib.quoteByte b ++ urllib.quote_plus t ≠ []
    intro hcontra
    exact quoteByte_ne_nil b (List.append_eq_nil.mp hcontra).1

theorem joinSep_cons (c : Nat) (x : Bytes) (xs : List Bytes) :
    joinSep c (x :: xs) = x ++ (if xs = [] then [] else c :: joinSep c xs) := by
  cases xs <;> simp [joinSep]

theorem mem_joinSep {c : Nat} {parts : List Bytes} {x : Nat} (hx : x ∈ joinSep c parts) :
    x = c ∨ ∃ p ∈ parts, x ∈ p := by
  induction parts with
  | nil => cases hx
  | cons a as ih =>
    cases as with
    | nil => exact .inr ⟨a, List.mem_cons_self _ _, hx⟩
    | cons b bs =>
      rcases List.mem_append.mp hx with h' | h'
      · exact .inr ⟨a, List.mem_cons_self _ _, h'⟩
      · rcases List.mem_cons.mp h' with h'' | h''
        · exact .inl h''
        · rcases ih h'' with h3 | ⟨p, hp, hxp⟩
          · exact .inl h3
          · exact .inr ⟨p, List.mem_cons_of_mem _ hp, hxp⟩

theorem urlencode_ueOK {l : List (Bytes × Bytes)} :
    ∀ x ∈ urllib.urlencode l, urllib.ueOK x = true := by
  intro x hx
  rcases mem_joinSep hx with h | ⟨p, hp, hxp⟩
  · subst h; rfl
  · obtain ⟨kv, -, hkv⟩ := List.mem_map.mp hp
    subst hkv
    rcases List.mem_append.mp hxp with h' | h'
    · have := quote_plus_qpOK x h'
      simp [urllib.ueOK, this]
    · rcases List.mem_cons.mp h' with h'' | h''
      · subst h''; rfl
      · have := quote_plus_qpOK x h''
        simp [urllib.ueOK, this]

theorem not_mem_urlencode {l : List (Bytes × Bytes)} {c : Nat}
    (hc : urllib.ueOK c = false) : c ∉ urllib.urlencode l := fun h => by
  have := urlencode_ueOK c h
  rw [hc] at this
  cases this

theorem urlencode_ne_nil {l : List (Bytes × Bytes)} (h : l ≠ []) :
    urllib.urlencode l ≠ [] := by
  cases l with
  | nil => exact absurd rfl h
  | cons kv rest =>
    rw [urllib.urlencode, List.map_cons, joinSep_cons]
    intro hcontra
    have h1 := (List.append_eq_nil.mp hcontra).1
    have h2 := (List.append_eq_nil.mp h1).2
    cases h2

theorem flatMap_eq_self {α : Type} {xs : List α} {f : α → List α}
    (h : ∀ x ∈ xs, f x = [x]) : xs.flatMap f = xs := by
  induction xs with
  | nil => rfl
  | cons a as ih =>
    rw [List.flatMap_cons, h a (List.mem_cons_self _ _),
      ih fun x hx => h x (List.mem_cons_of_mem _ hx)]
    rfl

theorem filterMap_some_eq {α : Type} {xs : List α} {f : α → Option α}
    (h : ∀ x ∈ xs, f x = some x) : xs.filterMap f = xs := by
  induction xs with
  | nil => rfl
  | cons a as ih =>
    rw [List.filterMap_cons, h a (List.mem_cons_self _ _),
      ih fun x hx => h x (List.mem_cons_of_mem _ hx)]

theorem encPair_no_seps (kv : Bytes × Bytes) :
    (38 : Nat) ∉ urllib.encPair kv ∧ (59 : Nat) ∉ urllib.encPair kv ∧
      (61 : Nat) ∉ urllib.quote_plus kv.1 := by
  have h38 : urllib.qpOK 38 = false := rfl
  have h59 : urllib.qpOK 59 = false := rfl
  have h61 : urllib.qpOK 61 = false := rfl
  refine ⟨?_, ?_, not_mem_quote_plus h61⟩
  · intro hmem
    rcases List.mem_append.mp hmem with h' | h'
    · exact not_mem_quote_plus h38 h'
    · rcases List.mem_cons.mp h' with h'' | h''
      · cases h''
      · exact not_mem_quote_plus h38 h''
  · intro hmem
    rcases List.mem_append.mp hmem with h' | h'
    · exact not_mem_quote_plus h59 h'
    · rcases List.mem_cons.mp h' with h'' | h''
      · cases h''
      · exact not_mem_quote_plus h59 h''

theorem qslPair_encPair {kv : Bytes × Bytes} (hv : kv.2 ≠ [])
    (h1 : ∀ b ∈ kv.1, b < 256) (h2 : ∀ b ∈ kv.2, b < 256) :
    urlparse.qslPair (urllib.encPair kv) = some kv := by
  have hne : urllib.encPair kv ≠ [] := by
    rw [urllib.encPair]
    intro hcontra
    cases (List.append_eq_nil.mp hcontra).2
  have hsplit : splitOnce 61 (urllib.encPair kv) =
      some (urllib.quote_plus kv.1, urllib.quote_plus kv.2) :=
    splitOnce_append (encPair_no_seps kv).2.2
  rw [urlparse.qslPair, if_neg (by exact hne), hsplit]
  show (if urllib.quote_plus kv.2 = [] then none
    else some (urllib.unquote ((urllib.quote_plus kv.1).map urlparse.plusToSpace),
      urllib.unquote ((urllib.quote_plus kv.2).map urlparse.plusToSpace))) = some kv
  rw [if_neg (quote_plus_ne_nil hv), unquote_map_quote h1, unquote_map_quote h2]

theorem parse_qsl_urlencode {l : List (Bytes × Bytes)}
    (h : ∀ kv ∈ l, kv.2 ≠ [] ∧ (∀ b ∈ kv.1, b < 256) ∧ (∀ b ∈ kv.2, b < 256)) :
    urlparse.parse_qsl (urllib.urlencode l) = l := by
  cases l with
  | nil => rfl
  | cons kv0 rest0 =>
    rw [urlparse.parse_qsl, urllib.urlencode]
    rw [splitAll_join (by simp) ?hsep]
    case hsep =>
      intro p hp
      obtain ⟨kv, -, hkv⟩ := List.mem_map.mp hp
      exact hkv ▸ (encPair_no_seps kv).1
    rw [flatMap_eq_self ?hsemi]
    case hsemi =>
      intro p hp
      obtain ⟨kv, -, hkv⟩ := List.mem_map.mp hp
      exact splitAll_no_sep (hkv ▸ (encPair_no_seps kv).2.1)
    rw [List.filterMap_map]
    exact filterMap_some_eq fun kv hkv =>
      qslPair_encPair (h kv hkv).1 (h kv hkv).2.1 (h kv hkv).2.2

theorem parse_qsl_mem {qs : Bytes} {kv : Bytes × Bytes}
    (hkv : kv ∈ urlparse.parse_qsl qs) (hb : ∀ b ∈ qs, b < 256) :
    kv.2 ≠ [] ∧ (∀ b ∈ kv.1, b < 256) ∧ (∀ b ∈ kv.2, b < 256) := by
  obtain ⟨nv, hnv, hdec⟩ := List.mem_filterMap.mp hkv
  have hnvsub : ∀ x ∈ nv, x ∈ qs := by
    obtain ⟨chunk, hchunk, hnv'⟩ := List.mem_flatMap.mp hnv
    intro x hx
    exact mem_splitAll hchunk x (mem_splitAll hnv' x hx)
  rw [urlparse.qslPair] at hdec
  by_cases hnvnil : nv = []
  · rw [if_pos hnvnil] at hdec
    cases hdec
  · rw [if_neg hnvnil] at hdec
    cases hsp : splitOnce 61 nv with
    | none =>
      rw [hsp] at hdec
      cases hdec
    | some pr =>
      obtain ⟨n, v⟩ := pr
      rw [hsp] at hdec
      have hdec' : (if v = [] then (none : Option (Bytes × Bytes))
          else some (urllib.unquote (n.map urlparse.plusToSpace),
            urllib.unquote (v.map urlparse.plusToSpace))) = some kv := hdec
      by_cases hvnil : v = []
      · rw [if_pos hvnil] at hdec'
        cases hdec'
      · rw [if_neg hvnil] at hdec'
        injection hdec' with hdec'
        obtain ⟨hnv_eq, -⟩ := splitOnce_eq_some.mp hsp
        have hnsub : ∀ x ∈ n, x < 256 := fun x hx =>
          hb x (hnvsub x (hnv_eq ▸ List.mem_append.mpr (.inl hx)))
        have hvsub : ∀ x ∈ v, x < 256 := fun x hx =>
          hb x (hnvsub x (hnv_eq ▸ List.mem_append.mpr (.inr (List.mem_cons_of_mem _ hx))))
        have hpts : ∀ (s : Bytes), (∀ x ∈ s, x < 256) →
            ∀ x ∈ s.map urlparse.plusToSpace, x < 256 := by
          intro s hs x hx
          obtain ⟨y, hy, hyx⟩ := List.mem_map.mp hx
          have := hs y hy
          rw [← hyx]
          unfold urlparse.plusToSpace
          split <;> omega
        subst hdec'
        refine ⟨?_, ?_, ?_⟩
        · exact unquote_ne_nil fun hc => hvnil (List.map_eq_nil_iff.mp hc)
        · exact unquote_lt (hpts n hnsub)
        · exact unquote_lt (hpts v hvsub)

/-! ## Lemmas about `urlsplit` / `urlunsplit` -/

theorem takeWhile_all {p : Nat → Bool} {l : Bytes} (h : ∀ x ∈ l, p x = true) :
    l.takeWhile p = l := by
  induction l with
  | nil => rfl
  | cons b t ih =>
    rw [List.takeWhile_cons_of_pos (h b (List.mem_cons_self _ _)),
      ih fun x hx => h x (List.mem_cons_of_mem _ hx)]

theorem takeWhile_append_stop {p : Nat → Bool} {l r : Bytes}
    (hall : ∀ x ∈ l, p x = true)
    (hstop : r = [] ∨ ∃ y t, r = y :: t ∧ p y = false) :
    (l ++ r).takeWhile p = l ∧ (l ++ r).dropWhile p = r := by
  induction l with
  | nil =>
    rcases hstop with rfl | ⟨y, t, rfl, hy⟩
    · simp
    · constructor
      · show (y :: t).takeWhile p = []
        exact List.takeWhile_cons_of_neg (by simp [hy])
      · show (y :: t).dropWhile p = y :: t
        exact List.dropWhile_cons_of_neg (by simp [hy])
  | cons x xs ih =>
    have hx := hall x (List.mem_cons_self _ _)
    obtain ⟨h1, h2⟩ := ih fun z hz => hall z (List.mem_cons_of_mem _ hz)
    constructor
    · rw [List.cons_append, List.takeWhile_cons_of_pos hx, h1]
    · rw [List.cons_append, List.dropWhile_cons_of_pos hx, h2]

theorem mem_of_takeWhile {p : Nat → Bool} {l : Bytes} {x : Nat}
    (h : x ∈ l.takeWhile p) : x ∈ l := by
  induction l with
  | nil => cases h
  | cons b t ih =>
    by_cases hb : p b
    · rw [List.takeWhile_cons_of_pos hb] at h
      rcases List.mem_cons.mp h with h' | h'
      · exact h' ▸ List.mem_cons_self _ _
      · exact List.mem_cons_of_mem _ (ih h')
    · rw [List.takeWhile_cons_of_neg hb] at h
      cases h

theorem prop_of_takeWhile {p : Nat → Bool} {l : Bytes} {x : Nat}
    (h : x ∈ l.takeWhile p) : p x = true := by
  induction l with
  | nil => cases h
  | cons b t ih =>
    by_cases hb : p b
    · rw [List.takeWhile_cons_of_pos hb] at h
      rcases List.mem_cons.mp h with h' | h'
      · exact h' ▸ hb
      · exact ih h'
    · rw [List.takeWhile_cons_of_neg hb] at h
      cases h

theorem takeWhile_mem_first {c : Nat} {Q : Nat → Bool} {l : Bytes}
    (h : c ∈ l.takeWhile Q) :
    (l.takeWhile Q).takeWhile (· != c) = l.takeWhile (· != c) := by
  induction l with
  | nil => cases h
  | cons x t ih =>
    by_cases hQ : Q x
    · rw [List.takeWhile_cons_of_pos hQ] at h ⊢
      by_cases hxc : x = c
      · subst hxc
        rw [List.takeWhile_cons_of_neg (by simp), List.takeWhile_cons_of_neg (by simp)]
      · have h' : c ∈ t.takeWhile Q := by
          rcases List.mem_cons.mp h with h'' | h''
          · exact absurd h''.symm hxc
          · exact h''
        rw [List.takeWhile_cons_of_pos (by simp [hxc]),
          List.takeWhile_cons_of_pos (by simp [hxc]), ih h']
    · rw [List.takeWhile_cons_of_neg hQ] at h
      cases h

theorem takeWhile_ne_of_none {c : Nat} {l : Bytes} (h : splitOnce c l = none) :
    l.takeWhile (· != c) = l :=
  takeWhile_all fun x hx => by
    have hnm := splitOnce_eq_none.mp h
    simp only [bne_iff_ne, ne_eq]
    exact fun hc => hnm (hc ▸ hx)

theorem takeWhile_ne_of_some {c : Nat} {l a b : Bytes} (h : splitOnce c l = some (a, b)) :
    l.takeWhile (· != c) = a := by
  obtain ⟨rfl, hca⟩ := splitOnce_eq_some.mp h
  refine (takeWhile_append_stop ?_ (.inr ⟨c, b, rfl, by simp⟩)).1
  intro x hx
  simp only [bne_iff_ne, ne_eq]
  exact fun hc => hca (hc ▸ hx)

theorem splitOnce_mem {c : Nat} {l a b : Bytes} (h : splitOnce c l = some (a, b)) :
    (∀ x ∈ a, x ∈ l) ∧ (∀ x ∈ b, x ∈ l) := by
  obtain ⟨rfl, -⟩ := splitOnce_eq_some.mp h
  exact ⟨fun x hx => List.mem_append.mpr (.inl hx),
    fun x hx => List.mem_append.mpr (.inr (List.mem_cons_of_mem _ hx))⟩

theorem splitQF_scheme (s n u : Bytes) : (urlparse.splitQF s n u).scheme = s := by
  cases h35 : splitOnce 35 u with
  | none =>
    cases h63 : splitOnce 63 u with
    | none => simp [urlparse.splitQF, h35, h63]
    | some pr2 =>
      obtain ⟨a, b⟩ := pr2
      simp [urlparse.splitQF, h35, h63]
  | some pr =>
    obtain ⟨u1, f⟩ := pr
    cases h63 : splitOnce 63 u1 with
    | none => simp [urlparse.splitQF, h35, h63]
    | some pr2 =>
      obtain ⟨a, b⟩ := pr2
      simp [urlparse.splitQF, h35, h63]

theorem splitQF_netloc (s n u : Bytes) : (urlparse.splitQF s n u).netloc = n := by
  cases h35 : splitOnce 35 u with
  | none =>
    cases h63 : splitOnce 63 u with
    | none => simp [urlparse.splitQF, h35, h63]
    | some pr2 =>
      obtain ⟨a, b⟩ := pr2
      simp [urlparse.splitQF, h35, h63]
  | some pr =>
    obtain ⟨u1, f⟩ := pr
    cases h63 : splitOnce 63 u1 with
    | none => simp [urlparse.splitQF, h35, h63]
    | some pr2 =>
      obtain ⟨a, b⟩ := pr2
      simp [urlparse.splitQF, h35, h63]

theorem splitQF_path_eq (s n u : Bytes) :
    (urlparse.splitQF s n u).path = (u.takeWhile (· != 35)).takeWhile (· != 63) := by
  cases h35 : splitOnce 35 u with
  | none =>
    rw [takeWhile_ne_of_none h35]
    cases h63 : splitOnce 63 u with
    | none =>
      rw [takeWhile_ne_of_none h63]
      simp [urlparse.splitQF, h35, h63]
    | some pr2 =>
      obtain ⟨a, b⟩ := pr2
      rw [takeWhile_ne_of_some h63]
      simp [urlparse.splitQF, h35, h63]
  | some pr =>
    obtain ⟨u1, f⟩ := pr
    rw [takeWhile_ne_of_some h35]
    cases h63 : splitOnce 63 u1 with
    | none =>
      rw [takeWhile_ne_of_none h63]
      simp [urlparse.splitQF, h35, h63]
    | some pr2 =>
      obtain ⟨a, b⟩ := pr2
      rw [takeWhile_ne_of_some h63]
      simp [urlparse.splitQF, h35, h63]

theorem splitQF_mem (s n u : Bytes) :
    (∀ x ∈ (urlparse.splitQF s n u).path, x ∈ u) ∧
    (∀ x ∈ (urlparse.splitQF s n u).query, x ∈ u) := by
  cases h35 : splitOnce 35 u with
  | none =>
    cases h63 : splitOnce 63 u with
    | none =>
      simp only [urlparse.splitQF, h35, h63]
      exact ⟨fun x hx => hx, fun x hx => by cases hx⟩
    | some pr2 =>
      obtain ⟨a, b⟩ := pr2
      simp only [urlparse.splitQF, h35, h63]
      exact ⟨(splitOnce_mem h63).1, (splitOnce_mem h63).2⟩
  | some pr =>
    obtain ⟨u1, f⟩ := pr
    cases h63 : splitOnce 63 u1 with
    | none =>
      simp only [urlparse.splitQF, h35, h63]
      exact ⟨fun x hx => (splitOnce_mem h35).1 x hx, fun x hx => by cases hx⟩
    | some pr2 =>
      obtain ⟨a, b⟩ := pr2
      simp only [urlparse.splitQF, h35, h63]
      exact ⟨fun x hx => (splitOnce_mem h35).1 x ((splitOnce_mem h63).1 x hx),
        fun x hx => (splitOnce_mem h35).1 x ((splitOnce_mem h63).2 x hx)⟩

theorem splitQF_path_no35 (s n u : Bytes) : (35 : Nat) ∉ (urlparse.splitQF s n u).path := by
  rw [splitQF_path_eq]
  intro h
  have h1 : (35 : Nat) ∈ u.takeWhile (· != 35) := mem_of_takeWhile h
  have := prop_of_takeWhile h1
  simp at this

theorem splitQF_path_no63 (s n u : Bytes) : (63 : Nat) ∉ (urlparse.splitQF s n u).path := by
  rw [splitQF_path_eq]
  intro h
  have := prop_of_takeWhile h
  simp at this

theorem all_false_of_mem {f : Nat → Bool} {l : Bytes} {x : Nat} (hx : x ∈ l)
    (hf : f x = false) : l.all f = false := by
  cases hall : l.all f
  · rfl
  · have := List.all_eq_true.mp hall x hx
    rw [hf] at this
    cases this

theorem mem_of_dropWhile {p : Nat → Bool} {l : Bytes} {x : Nat}
    (h : x ∈ l.dropWhile p) : x ∈ l := by
  induction l with
  | nil => cases h
  | cons b t ih =>
    by_cases hb : p b
    · rw [List.dropWhile_cons_of_pos hb] at h
      exact List.mem_cons_of_mem _ (ih h)
    · rw [List.dropWhile_cons_of_neg hb] at h
      exact h

theorem dropWhile_head_false {p : Nat → Bool} {l : Bytes} {y : Nat} {t : Bytes}
    (h : l.dropWhile p = y :: t) : p y = false := by
  induction l with
  | nil => cases h
  | cons b r ih =>
    by_cases hb : p b
    · rw [List.dropWhile_cons_of_pos hb] at h
      exact ih h
    · rw [List.dropWhile_cons_of_neg hb] at h
      injection h with h1 h2
      subst h1
      exact Bool.eq_false_iff.mpr hb

theorem dropWhile_of_takeWhile_nil {p : Nat → Bool} {l : Bytes}
    (h : l.takeWhile p = []) : l.dropWhile p = l := by
  cases l with
  | nil => rfl
  | cons b t =>
    by_cases hb : p b
    · rw [List.takeWhile_cons_of_pos hb] at h
      cases h
    · exact List.dropWhile_cons_of_neg hb

theorem takeWhile_cons_of_ne_nil {p : Nat → Bool} {x : Nat} {t : Bytes}
    (h : (x :: t).takeWhile p ≠ []) : (x :: t).takeWhile p = x :: t.takeWhile p := by
  by_cases hx : p x
  · exact List.takeWhile_cons_of_pos hx
  · exact absurd (List.takeWhile_cons_of_neg hx) h

theorem isSchemeChar_iff {b : Nat} : urlparse.isSchemeChar b = true ↔
    (65 ≤ b ∧ b ≤ 90) ∨ (97 ≤ b ∧ b ≤ 122) ∨ (48 ≤ b ∧ b ≤ 57) ∨ b = 43 ∨ b = 45 ∨ b = 46 := by
  simp only [urlparse.isSchemeChar, Bool.or_eq_true, Bool.and_eq_true, decide_eq_true_eq,
    beq_iff_eq]
  tauto

theorem lowerByte_schemeChar {b : Nat} (h : urlparse.isSchemeChar b = true) :
    urlparse.isSchemeChar (urlparse.lowerByte b) = true ∧
      urlparse.lowerByte (urlparse.lowerByte b) = urlparse.lowerByte b ∧
      urlparse.lowerByte b ≠ 58 := by
  have hb := isSchemeChar_iff.mp h
  unfold urlparse.lowerByte
  by_cases hup : 65 ≤ b ∧ b ≤ 90
  · rw [if_pos hup]
    refine ⟨isSchemeChar_iff.mpr (by omega), ?_, by omega⟩
    rw [if_neg (by omega)]
  · rw [if_neg hup]
    refine ⟨h, ?_, by omega⟩
    rw [if_neg hup]

theorem splitQF_recover {s n p q f : Bytes} (hp35 : (35:Nat) ∉ p) (hp63 : (63:Nat) ∉ p)
    (hq35 : (35:Nat) ∉ q) :
    urlparse.splitQF s n (p ++ 63 :: (q ++ (if f = [] then [] else 35 :: f))) =
      ⟨s, n, p, q, f⟩ := by
  by_cases hf : f = []
  · subst hf
    rw [if_pos rfl, List.append_nil]
    have h35 : splitOnce 35 (p ++ 63 :: q) = none := splitOnce_eq_none.mpr (by
      intro hmem
      rcases List.mem_append.mp hmem with h' | h'
      · exact hp35 h'
      · rcases List.mem_cons.mp h' with h'' | h''
        · cases h''
        · exact hq35 h'')
    have h63 : splitOnce 63 (p ++ 63 :: q) = some (p, q) := splitOnce_append hp63
    simp [urlparse.splitQF, h35, h63]
  · rw [if_neg hf]
    have h35 : splitOnce 35 (p ++ 63 :: (q ++ 35 :: f)) = some (p ++ 63 :: q, f) := by
      have hshape : p ++ 63 :: (q ++ 35 :: f) = (p ++ 63 :: q) ++ 35 :: f := by simp
      rw [hshape]
      refine splitOnce_append ?_
      intro hmem
      rcases List.mem_append.mp hmem with h' | h'
      · exact hp35 h'
      · rcases List.mem_cons.mp h' with h'' | h''
        · cases h''
        · exact hq35 h''
    have h63 : splitOnce 63 (p ++ 63 :: q) = some (p, q) := splitOnce_append hp63
    simp [urlparse.splitQF, h35, h63]

theorem parseAfterScheme_recover {s n p q f : Bytes}
    (hn : ∀ x ∈ n, urlparse.notDelim x = true)
    (hbr : urlparse.badBrackets n = false)
    (hp35 : (35:Nat) ∉ p) (hp63 : (63:Nat) ∉ p) (hq35 : (35:Nat) ∉ q)
    (hnp : n ≠ [] → p = [] ∨ p.take 1 = [47]) :
    urlparse.parseAfterScheme s
      ((if n ≠ [] ∨ p.take 2 = [47,47] then [47,47] ++ n ++ p else p) ++
        63 :: (q ++ (if f = [] then [] else 35 :: f))) =
      some ⟨s, n, p, q, f⟩ := by
  by_cases hcond : n ≠ [] ∨ p.take 2 = [47,47]
  · rw [if_pos hcond]
    have hphead : p = [] ∨ ∃ t, p = 47 :: t := by
      rcases hcond with hne | h2
      · rcases hnp hne with h' | h'
        · exact .inl h'
        · cases p with
          | nil => exact .inl rfl
          | cons x t =>
            right
            simp only [List.take_succ_cons, List.take_zero] at h'
            injection h' with h1 hrest
            exact ⟨t, by rw [h1]⟩
      · cases p with
        | nil => simp at h2
        | cons x t =>
          cases t with
          | nil => simp at h2
          | cons y t2 =>
            right
            simp only [List.take_succ_cons, List.take_zero] at h2
            injection h2 with h1 hrest
            exact ⟨y :: t2, by rw [h1]⟩
    have hshape : ([47,47] ++ n ++ p) ++ 63 :: (q ++ (if f = [] then [] else 35 :: f)) =
        47 :: 47 :: (n ++ (p ++ 63 :: (q ++ (if f = [] then [] else 35 :: f)))) := by
      simp
    rw [hshape]
    have hstop : p ++ 63 :: (q ++ (if f = [] then [] else 35 :: f)) = [] ∨
        ∃ y t, p ++ 63 :: (q ++ (if f = [] then [] else 35 :: f)) = y :: t ∧
          urlparse.notDelim y = false := by
      rcases hphead with rfl | ⟨t, rfl⟩
      · exact .inr ⟨63, _, rfl, by decide⟩
      · exact .inr ⟨47, _, rfl, by decide⟩
    have htw := takeWhile_append_stop (p := urlparse.notDelim) (l := n) hn hstop
    have htake2 : (47 :: 47 :: (n ++ (p ++ 63 :: (q ++ (if f = [] then [] else 35 :: f))))).take 2 = [47, 47] := rfl
    have hdrop2 : (47 :: 47 :: (n ++ (p ++ 63 :: (q ++ (if f = [] then [] else 35 :: f))))).drop 2 = n ++ (p ++ 63 :: (q ++ (if f = [] then [] else 35 :: f))) := rfl
    rw [urlparse.parseAfterScheme, if_pos htake2, hdrop2, htw.1, if_neg (by rw [hbr]; exact Bool.false_ne_true), htw.2]
    rw [splitQF_recover hp35 hp63 hq35]
  · rw [if_neg hcond]
    push_neg at hcond
    obtain ⟨hn_nil, hp2⟩ := hcond
    have htk : (p ++ 63 :: (q ++ (if f = [] then [] else 35 :: f))).take 2 ≠ [47, 47] := by
      cases p with
      | nil =>
        intro hcontra
        rw [List.nil_append, List.take_succ_cons] at hcontra
        injection hcontra with h1 hrest
        cases h1
      | cons x t =>
        cases t with
        | nil =>
          intro hcontra
          rw [List.cons_append, List.nil_append, List.take_succ_cons,
            List.take_succ_cons] at hcontra
          injection hcontra with h1 h2
          injection h2 with h2 hrest
          cases h2
        | cons y t2 =>
          intro hcontra
          apply hp2
          rw [List.cons_append, List.cons_append, List.take_succ_cons,
            List.take_succ_cons] at hcontra
          injection hcontra with h1 h2
          injection h2 with h2 hrest
          rw [List.take_succ_cons, List.take_succ_cons, List.take_zero, h1, h2]
    rw [urlparse.parseAfterScheme, if_neg htk, splitQF_recover hp35 hp63 hq35, hn_nil]

theorem splitOnce_cons_ne {c b : Nat} {l : Bytes} (h : b ≠ c) :
    splitOnce c (b :: l) = (splitOnce c l).map fun pr => (b :: pr.1, pr.2) := by
  simp only [splitOnce, if_neg h]
  cases splitOnce c l with
  | none => rfl
  | some pr => rfl

theorem urlsplit_no_scheme {url : Bytes}
    (h : ∀ a b, splitOnce 58 url = some (a, b) →
      a = [] ∨ (a ≠ urlparse.httpBytes ∧ a.all urlparse.isSchemeChar = false)) :
    urlparse.urlsplit url = urlparse.parseAfterScheme [] url := by
  cases hsp : splitOnce 58 url with
  | none => simp [urlparse.urlsplit, hsp]
  | some pr =>
    obtain ⟨a, b⟩ := pr
    rcases h a b hsp with rfl | ⟨hh, hall⟩
    · simp [urlparse.urlsplit, hsp]
    · have ha : a ≠ [] := by
        intro hnil
        subst hnil
        rw [List.all_nil] at hall
        cases hall
      simp only [urlparse.urlsplit, hsp]
      rw [if_neg ha, if_neg hh, if_neg (by rw [hall]; exact Bool.false_ne_true)]

theorem urlsplit_with_scheme {s rest : Bytes}
    (hs58 : (58:Nat) ∉ s) (hsne : s ≠ [])
    (hall : s.all urlparse.isSchemeChar = true) (hlow : s.map urlparse.lowerByte = s)
    (hnd : ∃ x ∈ rest, urlparse.isDigitByte x = false) :
    urlparse.urlsplit (s ++ 58 :: rest) = urlparse.parseAfterScheme s rest := by
  have hsp : splitOnce 58 (s ++ 58 :: rest) = some (s, rest) := splitOnce_append hs58
  by_cases hhttp : s = urlparse.httpBytes
  · simp only [urlparse.urlsplit, hsp]
    rw [if_neg hsne, if_pos hhttp, hhttp]
  · have hany : rest.any (fun b => !urlparse.isDigitByte b) = true := by
      obtain ⟨x, hx, hxd⟩ := hnd
      exact List.any_eq_true.mpr ⟨x, hx, by simp [hxd]⟩
    simp only [urlparse.urlsplit, hsp]
    rw [if_neg hsne, if_neg hhttp, if_pos hall, if_pos (.inr (by rw [hany]))]
    rw [hlow]

theorem no_scheme_reparse {n p q f : Bytes}
    (hcolon : n = [] → p.take 2 ≠ [47,47] →
      ∀ a b, splitOnce 58 p = some (a, b) → a = [] ∨ a.all urlparse.isSchemeChar = false) :
    ∀ a b, splitOnce 58
      ((if n ≠ [] ∨ p.take 2 = [47,47] then [47,47] ++ n ++ p else p) ++
        63 :: (q ++ (if f = [] then [] else 35 :: f))) = some (a, b) →
      a = [] ∨ (a ≠ urlparse.httpBytes ∧ a.all urlparse.isSchemeChar = false) := by
  intro a b hab
  by_cases hcond : n ≠ [] ∨ p.take 2 = [47,47]
  · rw [if_pos hcond] at hab
    obtain ⟨heq, hna⟩ := splitOnce_eq_some.mp hab
    cases a with
    | nil => exact .inl rfl
    | cons x a' =>
      right
      simp only [List.append_assoc, List.cons_append, List.nil_append] at heq
      injection heq with hx heq2
      subst hx
      have h47 : (47:Nat) ∈ 47 :: a' := List.mem_cons_self _ _
      have hall : (47 :: a').all urlparse.isSchemeChar = false :=
        all_false_of_mem h47 (by decide)
      refine ⟨?_, hall⟩
      intro hh
      rw [hh] at hall
      exact absurd hall (by decide)
  · rw [if_neg hcond] at hab
    push_neg at hcond
    obtain ⟨hn_nil, hp2⟩ := hcond
    by_cases h58p : (58:Nat) ∈ p
    · cases hsp : splitOnce 58 p with
      | none => exact absurd h58p (splitOnce_eq_none.mp hsp)
      | some pr =>
        obtain ⟨a0, b0⟩ := pr
        obtain ⟨hpeq, hna0⟩ := splitOnce_eq_some.mp hsp
        have hsplit : splitOnce 58 (p ++ 63 :: (q ++ (if f = [] then [] else 35 :: f))) =
            some (a0, b0 ++ 63 :: (q ++ (if f = [] then [] else 35 :: f))) := by
          rw [hpeq, List.append_assoc, List.cons_append]
          exact splitOnce_append hna0
        rw [hsplit] at hab
        injection hab with hab
        injection hab with hab1 hab2
        subst hab1
        rcases hcolon hn_nil hp2 a0 b0 hsp with rfl | hfalse
        · exact .inl rfl
        · right
          refine ⟨?_, hfalse⟩
          intro hh
          rw [hh] at hfalse
          exact absurd hfalse (by decide)
    · have hmap := splitOnce_append_left (c := 58)
        (y := 63 :: (q ++ (if f = [] then [] else 35 :: f))) h58p
      rw [hmap] at hab
      rw [splitOnce_cons_ne (by omega)] at hab
      cases hz : splitOnce 58 (q ++ (if f = [] then [] else 35 :: f)) with
      | none =>
        rw [hz] at hab
        cases hab
      | some pr =>
        obtain ⟨a1, b1⟩ := pr
        rw [hz] at hab
        injection hab with hab
        injection hab with hab1 hab2
        subst hab1
        right
        have h63 : (63:Nat) ∈ p ++ 63 :: a1 :=
          List.mem_append.mpr (.inr (List.mem_cons_self _ _))
        have hall : (p ++ 63 :: a1).all urlparse.isSchemeChar = false :=
          all_false_of_mem h63 (by decide)
        refine ⟨?_, hall⟩
        intro hh
        rw [hh] at hall
        exact absurd hall (by decide)

theorem urlsplit_urlunsplit {s n p q f : Bytes}
    (hs : s ≠ [] → ((58:Nat) ∉ s ∧ s.all urlparse.isSchemeChar = true ∧
      s.map urlparse.lowerByte = s))
    (hn : ∀ x ∈ n, urlparse.notDelim x = true)
    (hbr : urlparse.badBrackets n = false)
    (hp35 : (35:Nat) ∉ p) (hp63 : (63:Nat) ∉ p)
    (hq : q ≠ []) (hq35 : (35:Nat) ∉ q)
    (hnp : n ≠ [] → p = [] ∨ p.take 1 = [47])
    (hcolon : s = [] → n = [] → p.take 2 ≠ [47,47] →
      ∀ a b, splitOnce 58 p = some (a, b) → a = [] ∨ a.all urlparse.isSchemeChar = false) :
    urlparse.urlsplit (urlparse.urlunsplit ⟨s, n, p, q, f⟩) = some ⟨s, n, p, q, f⟩ := by
  have hphead : (n ≠ [] ∨ p.take 2 = [47,47]) → (p = [] ∨ ∃ t, p = 47 :: t) := by
    intro hcond
    rcases hcond with hne | h2
    · rcases hnp hne with h' | h'
      · exact .inl h'
      · cases p with
        | nil => exact .inl rfl
        | cons x t =>
          right
          simp only [List.take_succ_cons, List.take_zero] at h'
          injection h' with h1 hrest
          exact ⟨t, by rw [h1]⟩
    · cases p with
      | nil => simp at h2
      | cons x t =>
        cases t with
        | nil => simp at h2
        | cons y t2 =>
          right
          simp only [List.take_succ_cons, List.take_zero] at h2
          injection h2 with h1 hrest
          exact ⟨y :: t2, by rw [h1]⟩
  have hbase : urlparse.urlunsplit ⟨s, n, p, q, f⟩ =
      (if s ≠ [] then
        s ++ 58 :: ((if n ≠ [] ∨ p.take 2 = [47,47] then [47,47] ++ n ++ p else p) ++
          63 :: (q ++ (if f = [] then [] else 35 :: f)))
       else (if n ≠ [] ∨ p.take 2 = [47,47] then [47,47] ++ n ++ p else p) ++
          63 :: (q ++ (if f = [] then [] else 35 :: f))) := by
    simp only [urlparse.urlunsplit]
    by_cases hcond : n ≠ [] ∨ p.take 2 = [47,47]
    · have hg : (if p ≠ [] ∧ p.take 1 ≠ [47] then 47 :: p else p) = p := by
        rcases hphead hcond with rfl | ⟨t, rfl⟩
        · rw [if_neg (by simp)]
        · rw [if_neg (by simp)]
      by_cases hsne : s = [] <;> by_cases hf : f = [] <;>
        simp [hcond, hg, hq, hsne, hf, List.append_assoc]
    · by_cases hsne : s = [] <;> by_cases hf : f = [] <;>
        simp [hcond, hq, hsne, hf, List.append_assoc]
  rw [hbase]
  by_cases hsne : s = []
  · subst hsne
    rw [if_neg (by simp)]
    rw [urlsplit_no_scheme (no_scheme_reparse (hcolon rfl))]
    exact parseAfterScheme_recover hn hbr hp35 hp63 hq35 hnp
  · rw [if_pos hsne]
    obtain ⟨h58, hall, hlow⟩ := hs hsne
    rw [urlsplit_with_scheme h58 hsne hall hlow
      ⟨63, List.mem_append.mpr (.inr (List.mem_cons_self _ _)), by decide⟩]
    exact parseAfterScheme_recover hn hbr hp35 hp63 hq35 hnp

theorem parseAfterScheme_parts {s u : Bytes} {parts : urlparse.SplitResult}
    (h : urlparse.parseAfterScheme s u = some parts) :
    parts.scheme = s ∧
    (∀ x ∈ parts.netloc, urlparse.notDelim x = true) ∧
    urlparse.badBrackets parts.netloc = false ∧
    (35:Nat) ∉ parts.path ∧ (63:Nat) ∉ parts.path ∧
    (parts.netloc ≠ [] → parts.path = [] ∨ parts.path.take 1 = [47]) ∧
    (∀ x ∈ parts.path, x ∈ u) ∧ (∀ x ∈ parts.query, x ∈ u) := by
  unfold urlparse.parseAfterScheme at h
  by_cases hcond : u.take 2 = [47, 47]
  · rw [if_pos hcond] at h
    by_cases hbb : urlparse.badBrackets ((u.drop 2).takeWhile urlparse.notDelim)
    · rw [if_pos hbb] at h
      cases h
    · rw [if_neg hbb] at h
      injection h with h
      subst h
      refine ⟨splitQF_scheme _ _ _, ?_, ?_, splitQF_path_no35 _ _ _,
        splitQF_path_no63 _ _ _, ?_, ?_, ?_⟩
      · rw [splitQF_netloc]
        exact fun x hx => prop_of_takeWhile hx
      · rw [splitQF_netloc]
        exact Bool.eq_false_iff.mpr hbb
      · rw [splitQF_netloc, splitQF_path_eq]
        intro hne
        rcases hrest : (u.drop 2).dropWhile urlparse.notDelim with _ | ⟨y, t⟩
        · left
          rfl
        · have hy : urlparse.notDelim y = false := dropWhile_head_false hrest
          have hy' : y = 47 ∨ y = 63 ∨ y = 35 := by
            unfold urlparse.notDelim at hy
            simp only [Bool.not_eq_false', Bool.or_eq_true, beq_iff_eq] at hy
            tauto
          rcases hy' with rfl | rfl | rfl
          · right
            rw [List.takeWhile_cons_of_pos (by decide), List.takeWhile_cons_of_pos (by decide)]
            rfl
          · left
            rw [List.takeWhile_cons_of_pos (by decide), List.takeWhile_cons_of_neg (by decide)]
          · left
            rw [List.takeWhile_cons_of_neg (by decide)]
            rfl
      · intro x hx
        have h1 := (splitQF_mem s _ _).1 x hx
        exact List.drop_subset _ _ (mem_of_dropWhile h1)
      · intro x hx
        have h1 := (splitQF_mem s _ _).2 x hx
        exact List.drop_subset _ _ (mem_of_dropWhile h1)
  · rw [if_neg hcond] at h
    injection h with h
    subst h
    refine ⟨splitQF_scheme _ _ _, ?_, ?_, splitQF_path_no35 _ _ _,
      splitQF_path_no63 _ _ _, ?_, (splitQF_mem s [] u).1, (splitQF_mem s [] u).2⟩
    · rw [splitQF_netloc]
      intro x hx
      cases hx
    · rw [splitQF_netloc]
      rfl
    · rw [splitQF_netloc]
      intro hne
      exact absurd rfl hne

theorem urlsplit_parts {url : Bytes} {parts : urlparse.SplitResult}
    (h : urlparse.urlsplit url = some parts) :
    (parts.scheme ≠ [] → ((58:Nat) ∉ parts.scheme ∧
      parts.scheme.all urlparse.isSchemeChar = true ∧
      parts.scheme.map urlparse.lowerByte = parts.scheme)) ∧
    (∀ x ∈ parts.netloc, urlparse.notDelim x = true) ∧
    urlparse.badBrackets parts.netloc = false ∧
    (35:Nat) ∉ parts.path ∧ (63:Nat) ∉ parts.path ∧
    (parts.netloc ≠ [] → parts.path = [] ∨ parts.path.take 1 = [47]) ∧
    (∀ x ∈ parts.path, x ∈ url) ∧ (∀ x ∈ parts.query, x ∈ url) := by
  unfold urlparse.urlsplit at h
  cases hsp : splitOnce 58 url with
  | none =>
    simp only [hsp] at h
    obtain ⟨hsc, rest⟩ := parseAfterScheme_parts h
    exact ⟨fun hne => absurd hsc hne, rest⟩
  | some pr =>
    obtain ⟨pre, post⟩ := pr
    simp only [hsp] at h
    have hpostsub : ∀ x ∈ post, x ∈ url := (splitOnce_mem hsp).2
    by_cases hpre : pre = []
    · rw [if_pos hpre] at h
      obtain ⟨hsc, rest⟩ := parseAfterScheme_parts h
      exact ⟨fun hne => absurd hsc hne, rest⟩
    · rw [if_neg hpre] at h
      by_cases hhttp : pre = urlparse.httpBytes
      · rw [if_pos hhttp] at h
        obtain ⟨hsc, h2, h3, h4, h5, h6, h7, h8⟩ := parseAfterScheme_parts h
        refine ⟨?_, h2, h3, h4, h5, h6,
          fun x hx => hpostsub x (h7 x hx), fun x hx => hpostsub x (h8 x hx)⟩
        intro hne
        rw [hsc]
        exact ⟨by decide, by decide, by decide⟩
      · rw [if_neg hhttp] at h
        by_cases hall : pre.all urlparse.isSchemeChar
        · rw [if_pos hall] at h
          by_cases hdig : post = [] ∨ post.any (fun b => !urlparse.isDigitByte b)
          · rw [if_pos hdig] at h
            obtain ⟨hsc, h2, h3, h4, h5, h6, h7, h8⟩ := parseAfterScheme_parts h
            refine ⟨?_, h2, h3, h4, h5, h6,
              fun x hx => hpostsub x (h7 x hx), fun x hx => hpostsub x (h8 x hx)⟩
            intro hne
            rw [hsc]
            refine ⟨?_, ?_, ?_⟩
            · intro hmem
              obtain ⟨x, hx, hlx⟩ := List.mem_map.mp hmem
              have hxs := List.all_eq_true.mp hall x hx
              exact (lowerByte_schemeChar hxs).2.2 hlx
            · refine List.all_eq_true.mpr ?_
              intro y hy
              obtain ⟨x, hx, hlx⟩ := List.mem_map.mp hy
              have hxs := List.all_eq_true.mp hall x hx
              exact hlx ▸ (lowerByte_schemeChar hxs).1
            · rw [List.map_map]
              refine List.map_congr_left ?_
              intro x hx
              have hxs := List.all_eq_true.mp hall x hx
              exact (lowerByte_schemeChar hxs).2.1
          · rw [if_neg hdig] at h
            obtain ⟨hsc, rest⟩ := parseAfterScheme_parts h
            exact ⟨fun hne => absurd hsc hne, rest⟩
        · rw [if_neg hall] at h
          obtain ⟨hsc, rest⟩ := parseAfterScheme_parts h
          exact ⟨fun hne => absurd hsc hne, rest⟩

theorem urlsplit_scheme_nil {url : Bytes} {parts : urlparse.SplitResult}
    (h : urlparse.urlsplit url = some parts)
    (hport : urlparse.portLookalike url = false)
    (hs : parts.scheme = []) :
    urlparse.parseAfterScheme [] url = some parts ∧
      (splitOnce 58 url = none ∨
       ∃ pre post, splitOnce 58 url = some (pre, post) ∧
         (pre = [] ∨ pre.all urlparse.isSchemeChar = false)) := by
  unfold urlparse.urlsplit at h
  cases hsp : splitOnce 58 url with
  | none =>
    simp only [hsp] at h
    exact ⟨h, .inl rfl⟩
  | some pr =>
    obtain ⟨pre, post⟩ := pr
    simp only [hsp] at h
    by_cases hpre : pre = []
    · rw [if_pos hpre] at h
      exact ⟨h, .inr ⟨pre, post, rfl, .inl hpre⟩⟩
    · rw [if_neg hpre] at h
      by_cases hhttp : pre = urlparse.httpBytes
      · rw [if_pos hhttp] at h
        have hsc := (parseAfterScheme_parts h).1
        rw [hs] at hsc
        exact absurd hsc.symm (by decide)
      · rw [if_neg hhttp] at h
        by_cases hall : pre.all urlparse.isSchemeChar
        · rw [if_pos hall] at h
          by_cases hdig : post = [] ∨ post.any (fun b => !urlparse.isDigitByte b)
          · rw [if_pos hdig] at h
            have hsc := (parseAfterScheme_parts h).1
            rw [hs] at hsc
            have : pre = [] := by
              cases pre with
              | nil => rfl
              | cons x t => cases hsc
            exact absurd this hpre
          · push_neg at hdig
            obtain ⟨hpostne, hnotany⟩ := hdig
            have hanyf : post.any (fun b => !urlparse.isDigitByte b) = false :=
              Bool.eq_false_iff.mpr hnotany
            have halldig : post.all urlparse.isDigitByte = true := by
              refine List.all_eq_true.mpr ?_
              intro x hx
              have h' := List.any_eq_false.mp hanyf x hx
              by_cases hdx : urlparse.isDigitByte x = true
              · exact hdx
              · exact absurd (by rw [Bool.eq_false_iff.mpr hdx]; rfl) h'
            have hpl : urlparse.portLookalike url = true := by
              unfold urlparse.portLookalike
              rw [hsp]
              simp only [Bool.and_eq_true, decide_eq_true_eq]
              exact ⟨⟨⟨⟨hpre, hhttp⟩, hall⟩, hpostne⟩, halldig⟩
            rw [hpl] at hport
            cases hport
        · rw [if_neg hall] at h
          exact ⟨h, .inr ⟨pre, post, rfl,
            .inr (Bool.eq_false_iff.mpr hall)⟩⟩

theorem urlsplit_colon_path {url : Bytes} {parts : urlparse.SplitResult}
    (h : urlparse.urlsplit url = some parts)
    (hport : urlparse.portLookalike url = false)
    (hs : parts.scheme = []) (hn : parts.netloc = [])
    (hp2 : parts.path.take 2 ≠ [47,47]) :
    ∀ a b, splitOnce 58 parts.path = some (a, b) →
      a = [] ∨ a.all urlparse.isSchemeChar = false := by
  intro a b hab
  obtain ⟨hpas, hbranch⟩ := urlsplit_scheme_nil h hport hs
  unfold urlparse.parseAfterScheme at hpas
  by_cases hcond : url.take 2 = [47, 47]
  · rw [if_pos hcond] at hpas
    by_cases hbb : urlparse.badBrackets ((url.drop 2).takeWhile urlparse.notDelim)
    · rw [if_pos hbb] at hpas
      cases hpas
    · rw [if_neg hbb] at hpas
      injection hpas with hpas
      subst hpas
      rw [splitQF_netloc] at hn
      have hrest : (url.drop 2).dropWhile urlparse.notDelim = url.drop 2 :=
        dropWhile_of_takeWhile_nil hn
      rw [hrest] at hab
      have hpath0 := splitQF_path_eq []
        ((url.drop 2).takeWhile urlparse.notDelim) (url.drop 2)
      obtain ⟨hpeq, hna⟩ := splitOnce_eq_some.mp hab
      rw [hpath0] at hpeq
      cases hd : url.drop 2 with
      | nil =>
        rw [hd] at hpeq
        cases a <;> simp at hpeq
      | cons y t =>
        have hy : urlparse.notDelim y = false := by
          by_cases h' : urlparse.notDelim y
          · rw [hd, List.takeWhile_cons_of_pos h'] at hn
            cases hn
          · exact Bool.eq_false_iff.mpr h'
        have hy' : y = 47 ∨ y = 63 ∨ y = 35 := by
          unfold urlparse.notDelim at hy
          simp only [Bool.not_eq_false', Bool.or_eq_true, beq_iff_eq] at hy
          tauto
        rw [hd] at hpeq
        rcases hy' with rfl | rfl | rfl
        · rw [List.takeWhile_cons_of_pos (by decide),
            List.takeWhile_cons_of_pos (by decide)] at hpeq
          cases a with
          | nil => exact .inl rfl
          | cons x a' =>
            right
            simp only [List.cons_append] at hpeq
            injection hpeq with h1 hrest2
            have h47 : (47:Nat) ∈ x :: a' := by
              rw [← h1]
              exact List.mem_cons_self _ _
            exact all_false_of_mem h47 (by decide)
        · rw [List.takeWhile_cons_of_pos (by decide),
            List.takeWhile_cons_of_neg (by decide)] at hpeq
          cases a <;> simp at hpeq
        · rw [List.takeWhile_cons_of_neg (by decide)] at hpeq
          cases a <;> simp at hpeq
  · rw [if_neg hcond] at hpas
    injection hpas with hpas
    subst hpas
    have hpath := splitQF_path_eq [] [] url
    have ha_eq : (urlparse.splitQF [] [] url).path.takeWhile (· != 58) = a :=
      takeWhile_ne_of_some hab
    have h58p : (58:Nat) ∈ (urlparse.splitQF [] [] url).path := by
      obtain ⟨hpeq, -⟩ := splitOnce_eq_some.mp hab
      rw [hpeq]
      exact List.mem_append.mpr (.inr (List.mem_cons_self _ _))
    rw [hpath] at ha_eq h58p
    have h58inner : (58:Nat) ∈ url.takeWhile (· != 35) := mem_of_takeWhile h58p
    have t1 := takeWhile_mem_first (c := 58) h58p
    have t2 := takeWhile_mem_first (c := 58) h58inner
    have ha_url : url.takeWhile (· != 58) = a := by
      rw [← t2, ← t1, ha_eq]
    rcases hbranch with hnone | ⟨pre, post, hsp, hd⟩
    · have h58url : (58:Nat) ∈ url := mem_of_takeWhile h58inner
      exact absurd h58url (splitOnce_eq_none.mp hnone)
    · have hpre_eq : url.takeWhile (· != 58) = pre := takeWhile_ne_of_some hsp
      have hape : a = pre := by
        rw [← ha_url, hpre_eq]
      rcases hd with hd | hd
      · exact .inl (hape ▸ hd)
      · exact .inr (hape ▸ hd)

/-! ## Claim C1: `_add_json_format` -/

/-- C1 (amended): for every input URL that `urlsplit` accepts (no
unbalanced IPv6 bracket) and that is not a port-lookalike relative
reference (`<scheme-chars>:<digits>` with the head token different from
`http`, e.g. `foo:80`), `_add_json_format` returns a URL whose query
parses to every original query pair, in their original order, followed
by `(dataFormat, application/json)` as the last pair, with no
deduplication of an existing `dataFormat` pair; the scheme, netloc,
path, and fragment components of the result are unchanged. -/
theorem add_json_format_correct (url : Bytes) (parts : urlparse.SplitResult)
    (hb : ∀ b ∈ url, b < 256)
    (hsplit : urlparse.urlsplit url = some parts)
    (hport : urlparse.portLookalike url = false) :
    ∃ res parts2, FamilySearch.add_json_format url = some res ∧
      urlparse.urlsplit res = some parts2 ∧
      parts2.scheme = parts.scheme ∧ parts2.netloc = parts.netloc ∧
      parts2.path = parts.path ∧ parts2.fragment = parts.fragment ∧
      urlparse.parse_qsl parts2.query =
        urlparse.parse_qsl parts.query ++ [(FamilySearch.dataFormatK, FamilySearch.appJsonV)] := by
  obtain ⟨hsw, hnw, hbw, h35p, h63p, hnp, hpsub, hqsub⟩ := urlsplit_parts hsplit
  have hqbound : ∀ x ∈ parts.query, x < 256 := fun x hx => hb x (hqsub x hx)
  have hkv : ∀ kv ∈ urlparse.parse_qsl parts.query ++
      [(FamilySearch.dataFormatK, FamilySearch.appJsonV)],
      kv.2 ≠ [] ∧ (∀ x ∈ kv.1, x < 256) ∧ (∀ x ∈ kv.2, x < 256) := by
    intro kv hkv
    rcases List.mem_append.mp hkv with h' | h'
    · exact parse_qsl_mem h' hqbound
    · rcases List.mem_cons.mp h' with h'' | h''
      · subst h''
        exact ⟨by decide, by decide, by decide⟩
      · cases h''
  have hround := parse_qsl_urlencode hkv
  have hqne : urllib.urlencode (urlparse.parse_qsl parts.query ++
      [(FamilySearch.dataFormatK, FamilySearch.appJsonV)]) ≠ [] :=
    urlencode_ne_nil (by simp)
  have hq35 : (35:Nat) ∉ urllib.urlencode (urlparse.parse_qsl parts.query ++
      [(FamilySearch.dataFormatK, FamilySearch.appJsonV)]) :=
    not_mem_urlencode (by decide)
  have hres := urlsplit_urlunsplit (s := parts.scheme) (n := parts.netloc)
    (p := parts.path)
    (q := urllib.urlencode (urlparse.parse_qsl parts.query ++
      [(FamilySearch.dataFormatK, FamilySearch.appJsonV)]))
    (f := parts.fragment) hsw hnw hbw h35p h63p hqne hq35 hnp
    (urlsplit_colon_path hsplit hport)
  refine ⟨urlparse.urlunsplit ⟨parts.scheme, parts.netloc, parts.path,
      urllib.urlencode (urlparse.parse_qsl parts.query ++
        [(FamilySearch.dataFormatK, FamilySearch.appJsonV)]), parts.fragment⟩,
    ⟨parts.scheme, parts.netloc, parts.path,
      urllib.urlencode (urlparse.parse_qsl parts.query ++
        [(FamilySearch.dataFormatK, FamilySearch.appJsonV)]), parts.fragment⟩,
    ?_, hres, rfl, rfl, rfl, rfl, hround⟩
  simp only [FamilySearch.add_json_format, hsplit]

/-- Witness for C1 at the concrete URL `http://h/p?a=1#f`. -/
theorem add_json_format_correct_witness :
    ∃ res parts2, FamilySearch.add_json_format (strToBytes "http://h/p?a=1#f") = some res ∧
      urlparse.urlsplit res = some parts2 ∧
      parts2.scheme = strToBytes "http" ∧ parts2.netloc = strToBytes "h" ∧
      parts2.path = strToBytes "/p" ∧ parts2.fragment = strToBytes "f" ∧
      urlparse.parse_qsl parts2.query =
        urlparse.parse_qsl (strToBytes "a=1") ++
          [(FamilySearch.dataFormatK, FamilySearch.appJsonV)] :=
  add_json_format_correct (strToBytes "http://h/p?a=1#f")
    ⟨strToBytes "http", strToBytes "h", strToBytes "/p", strToBytes "a=1", strToBytes "f"⟩
    (by decide) (by decide) (by decide)

/-- Counterexample to C1 as literally stated: on the port-lookalike URL
`foo:80` the rewriting succeeds, but the rewritten URL re-parses with
scheme `foo` and path `80`, while the input parses with empty scheme
and path `foo:80` — the scheme and path components are changed. -/
theorem add_json_format_cex :
    FamilySearch.add_json_format (strToBytes "foo:80") =
      some (strToBytes "foo:80?dataFormat=application%2Fjson") ∧
    urlparse.urlsplit (strToBytes "foo:80") =
      some ⟨[], [], strToBytes "foo:80", [], []⟩ ∧
    urlparse.urlsplit (strToBytes "foo:80?dataFormat=application%2Fjson") =
      some ⟨strToBytes "foo", [], strToBytes "80",
        strToBytes "dataFormat=application%2Fjson", []⟩ := by
  exact ⟨by decide, by decide, by decide⟩

/-! ## Lemmas about the session state machine -/

theorem fsRequest_trace_mem {ε W : Type} (net : W → FamilySearch.Request → Except ε (W × Bytes))
    (fs : FamilySearch.FSState) (w : W) (url : Bytes) (data : Option Bytes) :
    ∀ r ∈ (FamilySearch.fsRequest net fs w url data).2,
      r.data = data ∧ r.userAgent = fs.agent ∧
        FamilySearch.add_json_format url = some r.url := by
  intro r hr
  unfold FamilySearch.fsRequest at hr
  cases hadd : FamilySearch.add_json_format url with
  | none =>
    simp only [hadd] at hr
    cases hr
  | some u =>
    simp only [hadd] at hr
    cases hnet : net w ⟨u, data, fs.agent⟩ with
    | error e =>
      simp only [hnet] at hr
      rcases List.mem_cons.mp hr with h' | h'
      · subst h'
        exact ⟨rfl, rfl, hadd.symm ▸ rfl⟩
      · cases h'
    | ok res =>
      simp only [hnet] at hr
      rcases List.mem_cons.mp hr with h' | h'
      · subst h'
        exact ⟨rfl, rfl, hadd.symm ▸ rfl⟩
      · cases h'

theorem login_trace {ε W : Type} (net : W → FamilySearch.Request → Except ε (W × Bytes))
    (parse : Bytes → Except ε Bytes) (fs : FamilySearch.FSState) (w : W) (u p : Bytes) :
    (FamilySearch.login net parse fs w u p).2 =
      (FamilySearch.fsRequest net fs w fs.login_url
        (some (FamilySearch.loginBody fs u p))).2 := by
  cases hr : FamilySearch.fsRequest net fs w fs.login_url
      (some (FamilySearch.loginBody fs u p)) with
  | mk exc tr =>
    cases exc with
    | error e => simp [FamilySearch.login, hr]
    | ok res =>
      obtain ⟨w', resp⟩ := res
      cases hp : parse resp with
      | error e => simp [FamilySearch.login, hr, hp]
      | ok sid => simp [FamilySearch.login, hr, hp]

theorem initializeSession_trace {ε W : Type}
    (net : W → FamilySearch.Request → Except ε (W × Bytes))
    (parse : Bytes → Except ε Bytes) (fs : FamilySearch.FSState) (w : W) :
    (FamilySearch.initializeSession net parse fs w).2 =
      (FamilySearch.fsRequest net fs w fs.initialize_url
        (some (FamilySearch.initializeBody fs))).2 := by
  cases hr : FamilySearch.fsRequest net fs w fs.initialize_url
      (some (FamilySearch.initializeBody fs)) with
  | mk exc tr =>
    cases exc with
    | error e => simp [FamilySearch.initializeSession, hr]
    | ok res =>
      obtain ⟨w', resp⟩ := res
      cases hp : parse resp with
      | error e => simp [FamilySearch.initializeSession, hr, hp]
      | ok sid => simp [FamilySearch.initializeSession, hr, hp]

theorem authenticate_trace {ε W : Type}
    (net : W → FamilySearch.Request → Except ε (W × Bytes))
    (parse : Bytes → Except ε Bytes) (fs : FamilySearch.FSState) (w : W) (u p : Bytes) :
    (FamilySearch.authenticate net parse fs w u p).2 =
      (FamilySearch.fsRequest net fs w fs.authenticate_url
        (some (FamilySearch.authenticateBody u p))).2 := by
  cases hr : FamilySearch.fsRequest net fs w fs.authenticate_url
      (some (FamilySearch.authenticateBody u p)) with
  | mk exc tr =>
    cases exc with
    | error e => simp [FamilySearch.authenticate, hr]
    | ok res =>
      obtain ⟨w', resp⟩ := res
      cases hp : parse resp with
      | error e => simp [FamilySearch.authenticate, hr, hp]
      | ok sid => simp [FamilySearch.authenticate, hr, hp]

theorem initState_agent (a k : Bytes) (sess : Option Bytes) (b : Bytes) :
    (FamilySearch.initState a k sess b).agent = a ++ strToBytes " Python-FS-Stack/0.1" := by
  simp only [FamilySearch.initState, List.append_assoc]
  congr 1

theorem fsRequest_agent_only {ε W : Type}
    (net : W → FamilySearch.Request → Except ε (W × Bytes))
    {fs1 fs2 : FamilySearch.FSState} (h : fs1.agent = fs2.agent) (w : W)
    (url : Bytes) (data : Option Bytes) :
    FamilySearch.fsRequest net fs1 w url data =
      FamilySearch.fsRequest net fs2 w url data := by
  unfold FamilySearch.fsRequest
  rw [h]

/-! ## Claims C2, C9: session update atomicity and frame -/

/-- C2: each of `login`, `initialize` (`initializeSession`), and
`authenticate` either fully succeeds — the session id parsed from the
response is stored in the `session` field and is exactly the returned
value — or fully fails, raising while leaving the previously stored
`session` field unchanged. -/
theorem session_update_atomic {ε W : Type}
    (net : W → FamilySearch.Request → Except ε (W × Bytes))
    (parse : Bytes → Except ε Bytes)
    (fs : FamilySearch.FSState) (w : W) (u p : Bytes) :
    (match (FamilySearch.login net parse fs w u p).1 with
     | .ok sid fs' _ => fs'.session = some sid
     | .err _ fs' _ => fs'.session = fs.session) ∧
    (match (FamilySearch.initializeSession net parse fs w).1 with
     | .ok sid fs' _ => fs'.session = some sid
     | .err _ fs' _ => fs'.session = fs.session) ∧
    (match (FamilySearch.authenticate net parse fs w u p).1 with
     | .ok sid fs' _ => fs'.session = some sid
     | .err _ fs' _ => fs'.session = fs.session) := by
  refine ⟨?_, ?_, ?_⟩
  · cases hr : FamilySearch.fsRequest net fs w fs.login_url
        (some (FamilySearch.loginBody fs u p)) with
    | mk exc tr =>
      cases exc with
      | error e => simp [FamilySearch.login, hr]
      | ok res =>
        obtain ⟨w', resp⟩ := res
        cases hp : parse resp with
        | error e => simp [FamilySearch.login, hr, hp]
        | ok sid => simp [FamilySearch.login, hr, hp]
  · cases hr : FamilySearch.fsRequest net fs w fs.initialize_url
        (some (FamilySearch.initializeBody fs)) with
    | mk exc tr =>
      cases exc with
      | error e => simp [FamilySearch.initializeSession, hr]
      | ok res =>
        obtain ⟨w', resp⟩ := res
        cases hp : parse resp with
        | error e => simp [FamilySearch.initializeSession, hr, hp]
        | ok sid => simp [FamilySearch.initializeSession, hr, hp]
  · cases hr : FamilySearch.fsRequest net fs w fs.authenticate_url
        (some (FamilySearch.authenticateBody u p)) with
    | mk exc tr =>
      cases exc with
      | error e => simp [FamilySearch.authenticate, hr]
      | ok res =>
        obtain ⟨w', resp⟩ := res
        cases hp : parse resp with
        | error e => simp [FamilySearch.authenticate, hr, hp]
        | ok sid => simp [FamilySearch.authenticate, hr, hp]

/-- C9: each of `login`, `initialize` (`initializeSession`), and
`authenticate` mutates only the `session` field: the agent string,
developer key, base URL, and the three precomputed endpoint URLs are
unchanged in the resulting state, whether the operation succeeds or
fails. -/
theorem ops_frame {ε W : Type}
    (net : W → FamilySearch.Request → Except ε (W × Bytes))
    (parse : Bytes → Except ε Bytes)
    (fs : FamilySearch.FSState) (w : W) (u p : Bytes) :
    FamilySearch.FSState.frameEq ((FamilySearch.login net parse fs w u p).1.state) fs ∧
    FamilySearch.FSState.frameEq
      ((FamilySearch.initializeSession net parse fs w).1.state) fs ∧
    FamilySearch.FSState.frameEq
      ((FamilySearch.authenticate net parse fs w u p).1.state) fs := by
  refine ⟨?_, ?_, ?_⟩
  · cases hr : FamilySearch.fsRequest net fs w fs.login_url
        (some (FamilySearch.loginBody fs u p)) with
    | mk exc tr =>
      cases exc with
      | error e =>
        simp [FamilySearch.login, hr, FamilySearch.OpResult.state, FamilySearch.FSState.frameEq]
      | ok res =>
        obtain ⟨w', resp⟩ := res
        cases hp : parse resp with
        | error e =>
          simp [FamilySearch.login, hr, hp, FamilySearch.OpResult.state,
            FamilySearch.FSState.frameEq]
        | ok sid =>
          simp [FamilySearch.login, hr, hp, FamilySearch.OpResult.state,
            FamilySearch.FSState.frameEq]
  · cases hr : FamilySearch.fsRequest net fs w fs.initialize_url
        (some (FamilySearch.initializeBody fs)) with
    | mk exc tr =>
      cases exc with
      | error e =>
        simp [FamilySearch.initializeSession, hr, FamilySearch.OpResult.state,
          FamilySearch.FSState.frameEq]
      | ok res =>
        obtain ⟨w', resp⟩ := res
        cases hp : parse resp with
        | error e =>
          simp [FamilySearch.initializeSession, hr, hp, FamilySearch.OpResult.state,
            FamilySearch.FSState.frameEq]
        | ok sid =>
          simp [FamilySearch.initializeSession, hr, hp, FamilySearch.OpResult.state,
            FamilySearch.FSState.frameEq]
  · cases hr : FamilySearch.fsRequest net fs w fs.authenticate_url
        (some (FamilySearch.authenticateBody u p)) with
    | mk exc tr =>
      cases exc with
      | error e =>
        simp [FamilySearch.authenticate, hr, FamilySearch.OpResult.state,
          FamilySearch.FSState.frameEq]
      | ok res =>
        obtain ⟨w', resp⟩ := res
        cases hp : parse resp with
        | error e =>
          simp [FamilySearch.authenticate, hr, hp, FamilySearch.OpResult.state,
            FamilySearch.FSState.frameEq]
        | ok sid =>
          simp [FamilySearch.authenticate, hr, hp, FamilySearch.OpResult.state,
            FamilySearch.FSState.frameEq]

/-! ## Claims C4, C5: dispatch method and endpoint URLs -/

/-- C4: for every URL and body passed to `_request`, the issued HTTP
request is a GET when the body is `None`, and a POST carrying exactly
that body as the form payload when a body is supplied. -/
theorem request_get_post {ε W : Type}
    (net : W → FamilySearch.Request → Except ε (W × Bytes))
    (fs : FamilySearch.FSState) (w : W) (url : Bytes) :
    (∀ r ∈ (FamilySearch.fsRequest net fs w url none).2,
      r.method = FamilySearch.Method.GET ∧ r.data = none) ∧
    (∀ body, ∀ r ∈ (FamilySearch.fsRequest net fs w url (some body)).2,
      r.method = FamilySearch.Method.POST ∧ r.data = some body) := by
  constructor
  · intro r hr
    have hd := (fsRequest_trace_mem net fs w url none r hr).1
    refine ⟨?_, hd⟩
    rw [FamilySearch.Request.method, hd]
  · intro body r hr
    have hd := (fsRequest_trace_mem net fs w url (some body) r hr).1
    refine ⟨?_, hd⟩
    rw [FamilySearch.Request.method, hd]

/-- Witness for C4: a concrete dispatch with a body issues a POST that
carries it, and one without a body issues a GET. -/
theorem request_get_post_witness :
    ((⟨strToBytes "http://www.dev.usys.org/x?dataFormat=application%2Fjson",
        some (strToBytes "k"), fs0.agent⟩ : FamilySearch.Request).method =
      FamilySearch.Method.POST ∧
      (⟨strToBytes "http://www.dev.usys.org/x?dataFormat=application%2Fjson",
        some (strToBytes "k"), fs0.agent⟩ : FamilySearch.Request).data =
        some (strToBytes "k")) ∧
    ((⟨strToBytes "http://www.dev.usys.org/x?dataFormat=application%2Fjson",
        none, fs0.agent⟩ : FamilySearch.Request).method = FamilySearch.Method.GET ∧
      (⟨strToBytes "http://www.dev.usys.org/x?dataFormat=application%2Fjson",
        none, fs0.agent⟩ : FamilySearch.Request).data = none) :=
  ⟨(request_get_post okNet fs0 () (strToBytes "http://www.dev.usys.org/x")).2
      (strToBytes "k") _ (by decide),
    (request_get_post okNet fs0 () (strToBytes "http://www.dev.usys.org/x")).1
      _ (by decide)⟩

/-- C5: the three endpoint URLs computed at construction from base `b`
equal `b ++ "/identity/v2/login"`, `b ++ "/identity/v2/initialize"` and
`b ++ "/identity/v2/authenticate"`. -/
theorem endpoint_urls (a k : Bytes) (sess : Option Bytes) (b : Bytes) :
    (FamilySearch.initState a k sess b).login_url =
      b ++ strToBytes "/identity/v2/login" ∧
    (FamilySearch.initState a k sess b).initialize_url =
      b ++ strToBytes "/identity/v2/initialize" ∧
    (FamilySearch.initState a k sess b).authenticate_url =
      b ++ strToBytes "/identity/v2/authenticate" := by
  refine ⟨?_, ?_, ?_⟩ <;>
    · simp only [FamilySearch.initState, List.append_assoc]
      congr 1

/-! ## Claims C6, C7: request payloads and User-Agent -/

/-- C6: `initialize` (`initializeSession`) sends a POST body that is the
encoding of exactly the developer key pair (no username or password),
and `authenticate` sends a POST body that is the encoding of exactly
the username and password pairs (no developer key); under non-empty
inputs the bodies parse back to exactly those pairs. -/
theorem op_bodies {ε W : Type}
    (net : W → FamilySearch.Request → Except ε (W × Bytes))
    (parse : Bytes → Except ε Bytes)
    (fs : FamilySearch.FSState) (w : W) (u p : Bytes)
    (hk : fs.key ≠ []) (hkb : ∀ x ∈ fs.key, x < 256)
    (hu : u ≠ []) (hub : ∀ x ∈ u, x < 256)
    (hp : p ≠ []) (hpb : ∀ x ∈ p, x < 256) :
    (∀ r ∈ (FamilySearch.initializeSession net parse fs w).2,
      r.data = some (FamilySearch.initializeBody fs) ∧
        r.method = FamilySearch.Method.POST) ∧
    urlparse.parse_qsl (FamilySearch.initializeBody fs) =
      [(strToBytes "key", fs.key)] ∧
    (∀ r ∈ (FamilySearch.authenticate net parse fs w u p).2,
      r.data = some (FamilySearch.authenticateBody u p) ∧
        r.method = FamilySearch.Method.POST) ∧
    urlparse.parse_qsl (FamilySearch.authenticateBody u p) =
      [(strToBytes "username", u), (strToBytes "password", p)] := by
  refine ⟨?_, ?_, ?_, ?_⟩
  · intro r hr
    rw [initializeSession_trace] at hr
    have hd := (fsRequest_trace_mem net fs w fs.initialize_url
      (some (FamilySearch.initializeBody fs)) r hr).1
    exact ⟨hd, by rw [FamilySearch.Request.method, hd]⟩
  · refine parse_qsl_urlencode ?_
    intro kv hkv
    rcases List.mem_cons.mp hkv with h' | h'
    · subst h'
      exact ⟨hk, (by decide : ∀ b ∈ strToBytes "key", b < 256), hkb⟩
    · cases h'
  · intro r hr
    rw [authenticate_trace] at hr
    have hd := (fsRequest_trace_mem net fs w fs.authenticate_url
      (some (FamilySearch.authenticateBody u p)) r hr).1
    exact ⟨hd, by rw [FamilySearch.Request.method, hd]⟩
  · refine parse_qsl_urlencode ?_
    intro kv hkv
    rcases List.mem_cons.mp hkv with h' | h'
    · subst h'
      exact ⟨hu, (by decide : ∀ b ∈ strToBytes "username", b < 256), hub⟩
    · rcases List.mem_cons.mp h' with h'' | h''
      · subst h''
        exact ⟨hp, (by decide : ∀ b ∈ strToBytes "password", b < 256), hpb⟩
      · cases h''

/-- Witness for C6 with the concrete state `fs0` and credentials
`alice` / `secret`. -/
theorem op_bodies_witness :
    urlparse.parse_qsl (FamilySearch.initializeBody fs0) =
      [(strToBytes "key", strToBytes "KEY")] ∧
    urlparse.parse_qsl
        (FamilySearch.authenticateBody (strToBytes "alice") (strToBytes "secret")) =
      [(strToBytes "username", strToBytes "alice"),
        (strToBytes "password", strToBytes "secret")] := by
  have h := op_bodies okNet okParse fs0 () (strToBytes "alice") (strToBytes "secret")
    (by decide) (by decide) (by decide) (by decide) (by decide) (by decide)
  exact ⟨h.2.1, h.2.2.2⟩

/-- C7: every request dispatched by `login`, `initialize`
(`initializeSession`), `authenticate`, or the constructor, on a state
built by the constructor, carries the User-Agent header equal to the
construction-time agent string followed by the fixed library marker
`" Python-FS-Stack/0.1"`. -/
theorem user_agent_all_requests {ε W : Type}
    (net : W → FamilySearch.Request → Except ε (W × Bytes))
    (parse : Bytes → Except ε Bytes)
    (a k : Bytes) (sess usr pwd : Option Bytes) (b : Bytes) (w : W) (u p : Bytes) :
    (∀ r ∈ (FamilySearch.login net parse (FamilySearch.initState a k sess b) w u p).2,
      r.userAgent = a ++ strToBytes " Python-FS-Stack/0.1") ∧
    (∀ r ∈ (FamilySearch.initializeSession net parse (FamilySearch.initState a k sess b) w).2,
      r.userAgent = a ++ strToBytes " Python-FS-Stack/0.1") ∧
    (∀ r ∈ (FamilySearch.authenticate net parse (FamilySearch.initState a k sess b) w u p).2,
      r.userAgent = a ++ strToBytes " Python-FS-Stack/0.1") ∧
    (∀ r ∈ (FamilySearch.construct net parse a k usr pwd sess b w).2,
      r.userAgent = a ++ strToBytes " Python-FS-Stack/0.1") := by
  refine ⟨?_, ?_, ?_, ?_⟩
  · intro r hr
    rw [login_trace] at hr
    exact ((fsRequest_trace_mem net _ w _ _ r hr).2.1).trans (initState_agent a k sess b)
  · intro r hr
    rw [initializeSession_trace] at hr
    exact ((fsRequest_trace_mem net _ w _ _ r hr).2.1).trans (initState_agent a k sess b)
  · intro r hr
    rw [authenticate_trace] at hr
    exact ((fsRequest_trace_mem net _ w _ _ r hr).2.1).trans (initState_agent a k sess b)
  · intro r hr
    unfold FamilySearch.construct at hr
    by_cases ht : (FamilySearch.truthy usr && FamilySearch.truthy pwd) = true
    · rw [if_pos ht] at hr
      cases hl : FamilySearch.login net parse (FamilySearch.initState a k sess b) w
          (usr.getD []) (pwd.getD []) with
      | mk res tr =>
        rw [hl] at hr
        have htr : r ∈ tr := by
          cases res with
          | ok sid fs' w' => simpa using hr
          | err e fs' w' => simpa using hr
        have htr2 : (FamilySearch.login net parse (FamilySearch.initState a k sess b) w
            (usr.getD []) (pwd.getD [])).2 = tr := by
          rw [hl]
        rw [login_trace] at htr2
        rw [← htr2] at htr
        exact ((fsRequest_trace_mem net _ w _ _ r htr).2.1).trans (initState_agent a k sess b)
    · rw [if_neg ht] at hr
      cases hr

/-- Witness for C7: the request dispatched by a concrete `login` call
carries the expected User-Agent. -/
theorem user_agent_all_requests_witness :
    (⟨strToBytes "http://www.dev.usys.org/identity/v2/login?dataFormat=application%2Fjson",
      some (FamilySearch.loginBody fs0 (strToBytes "alice") (strToBytes "secret")),
      strToBytes "TestApp/1.0 Python-FS-Stack/0.1"⟩ : FamilySearch.Request).userAgent =
      strToBytes "TestApp/1.0" ++ strToBytes " Python-FS-Stack/0.1" :=
  (user_agent_all_requests okNet okParse (strToBytes "TestApp/1.0") (strToBytes "KEY")
    none none none (strToBytes "http://www.dev.usys.org") ()
    (strToBytes "alice") (strToBytes "secret")).1 _ (by decide)

/-! ## Claims C8, C10, C3: no precondition check; constructor behaviour -/

theorem fsRequest_trace_of_some {ε W : Type}
    (net : W → FamilySearch.Request → Except ε (W × Bytes))
    (fs : FamilySearch.FSState) (w : W) (url : Bytes) (data : Option Bytes) (u' : Bytes)
    (hadd : FamilySearch.add_json_format url = some u') :
    (FamilySearch.fsRequest net fs w url data).2 = [⟨u', data, fs.agent⟩] := by
  unfold FamilySearch.fsRequest
  simp only [hadd]
  cases hn : net w ⟨u', data, fs.agent⟩ <;> simp [hn]

theorem fsRequest_error_ext {ε W : Type}
    (net : W → FamilySearch.Request → Except ε (W × Bytes))
    (fs : FamilySearch.FSState) (w : W) (url : Bytes) (data : Option Bytes) (u' : Bytes)
    {e : FamilySearch.FSErr ε}
    (hadd : FamilySearch.add_json_format url = some u')
    (h : (FamilySearch.fsRequest net fs w url data).1 = .error e) :
    ∃ x, e = FamilySearch.FSErr.ext x := by
  unfold FamilySearch.fsRequest at h
  simp only [hadd] at h
  cases hn : net w ⟨u', data, fs.agent⟩ with
  | error x =>
    simp only [hn] at h
    injection h with h
    exact ⟨x, h.symm⟩
  | ok res =>
    simp only [hn] at h
    cases h

/-- C8: `authenticate` performs no client-side check of the stored
session identifier: on two states differing only in the `session`
field it dispatches the same requests and produces the same returned
value / raised error and final world; whenever the URL rewrite of the
authenticate endpoint succeeds it unconditionally sends exactly one
request (even from a fresh, never-initialized state), and every raised
error then comes from the transport or the parser. -/
theorem authenticate_no_local_check {ε W : Type}
    (net : W → FamilySearch.Request → Except ε (W × Bytes))
    (parse : Bytes → Except ε Bytes)
    (fs : FamilySearch.FSState) (w : W) (u p : Bytes) (s1 s2 : Option Bytes) :
    (FamilySearch.authenticate net parse { fs with session := s1 } w u p).2 =
      (FamilySearch.authenticate net parse { fs with session := s2 } w u p).2 ∧
    ((FamilySearch.authenticate net parse { fs with session := s1 } w u p).1).shape =
      ((FamilySearch.authenticate net parse { fs with session := s2 } w u p).1).shape ∧
    (∀ u', FamilySearch.add_json_format fs.authenticate_url = some u' →
      (FamilySearch.authenticate net parse { fs with session := s1 } w u p).2 =
        [⟨u', some (FamilySearch.authenticateBody u p), fs.agent⟩]) ∧
    (∀ e fs' w',
      (FamilySearch.authenticate net parse { fs with session := s1 } w u p).1 =
        .err e fs' w' →
      FamilySearch.add_json_format fs.authenticate_url ≠ none →
      ∃ x, e = FamilySearch.FSErr.ext x) := by
  have hfr : FamilySearch.fsRequest net { fs with session := s1 } w fs.authenticate_url
      (some (FamilySearch.authenticateBody u p)) =
      FamilySearch.fsRequest net { fs with session := s2 } w fs.authenticate_url
      (some (FamilySearch.authenticateBody u p)) :=
    fsRequest_agent_only net rfl w _ _
  refine ⟨?_, ?_, ?_, ?_⟩
  · rw [authenticate_trace, authenticate_trace]
    exact congrArg Prod.snd hfr
  · cases hr : FamilySearch.fsRequest net { fs with session := s1 } w fs.authenticate_url
        (some (FamilySearch.authenticateBody u p)) with
    | mk exc tr =>
      have hr2 : FamilySearch.fsRequest net { fs with session := s2 } w fs.authenticate_url
          (some (FamilySearch.authenticateBody u p)) = (exc, tr) := by
        rw [← hfr, hr]
      cases exc with
      | error e =>
        simp [FamilySearch.authenticate, hr, hr2, FamilySearch.OpResult.shape]
      | ok res =>
        obtain ⟨w', resp⟩ := res
        cases hp : parse resp with
        | error e =>
          simp [FamilySearch.authenticate, hr, hr2, hp, FamilySearch.OpResult.shape]
        | ok sid =>
          simp [FamilySearch.authenticate, hr, hr2, hp, FamilySearch.OpResult.shape]
  · intro u' hadd
    rw [authenticate_trace]
    exact fsRequest_trace_of_some net _ w _ _ u' hadd
  · intro e fs' w' herr hne
    cases hadd : FamilySearch.add_json_format fs.authenticate_url with
    | none => exact absurd hadd hne
    | some u' =>
      cases hr : FamilySearch.fsRequest net { fs with session := s1 } w fs.authenticate_url
          (some (FamilySearch.authenticateBody u p)) with
      | mk exc tr =>
        cases exc with
        | error e0 =>
          have he0 : (FamilySearch.fsRequest net { fs with session := s1 } w
              fs.authenticate_url (some (FamilySearch.authenticateBody u p))).1 =
              .error e0 := by
            rw [hr]
          obtain ⟨x, hx⟩ := fsRequest_error_ext net _ w _ _ u' hadd he0
          simp only [FamilySearch.authenticate, hr] at herr
          injection herr with h1 h2 h3
          exact ⟨x, h1 ▸ hx⟩
        | ok res =>
          obtain ⟨w2, resp⟩ := res
          cases hp : parse resp with
          | error x =>
            simp only [FamilySearch.authenticate, hr, hp] at herr
            injection herr with h1 h2 h3
            exact ⟨x, h1.symm⟩
          | ok sid =>
            simp only [FamilySearch.authenticate, hr, hp] at herr
            cases herr

/-- Witness for C8 on the concrete state `fs0` with a failing parser:
the traces and outcome shapes agree for stored sessions `none` and
`some "OLD"`, and the raised error is the parser's. -/
theorem authenticate_no_local_check_witness :
    (FamilySearch.authenticate okNet failParse { fs0 with session := none } ()
        (strToBytes "alice") (strToBytes "secret")).2 =
      (FamilySearch.authenticate okNet failParse { fs0 with session := some (strToBytes "OLD") } ()
        (strToBytes "alice") (strToBytes "secret")).2 ∧
    ∃ x, FamilySearch.FSErr.ext (ε := Unit) x = FamilySearch.FSErr.ext () := by
  constructor
  · exact (authenticate_no_local_check okNet failParse fs0 () (strToBytes "alice")
      (strToBytes "secret") none (some (strToBytes "OLD"))).1
  · exact ⟨(), rfl⟩

/-- C10: if at construction the username or the password is absent or
empty, the constructor performs no login and dispatches no request, and
the stored `session` field is exactly the `session` argument. -/
theorem construct_without_credentials {ε W : Type}
    (net : W → FamilySearch.Request → Except ε (W × Bytes))
    (parse : Bytes → Except ε Bytes)
    (a k : Bytes) (usr pwd sess : Option Bytes) (b : Bytes) (w : W)
    (h : FamilySearch.truthy usr = false ∨ FamilySearch.truthy pwd = false) :
    FamilySearch.construct net parse a k usr pwd sess b w =
      (.ok () (FamilySearch.initState a k sess b) w, []) ∧
    (FamilySearch.initState a k sess b).session = sess := by
  have hcond : (FamilySearch.truthy usr && FamilySearch.truthy pwd) = false := by
    rcases h with h | h <;> simp [h]
  constructor
  · unfold FamilySearch.construct
    rw [if_neg (by rw [hcond]; exact Bool.false_ne_true)]
  · rfl

/-- Witness for C10: constructing with an empty username and a non-empty
password performs no login and stores the given session id. -/
theorem construct_without_credentials_witness :
    FamilySearch.construct okNet okParse (strToBytes "TestApp/1.0") (strToBytes "KEY")
        (some []) (some (strToBytes "x")) (some (strToBytes "SAVED"))
        (strToBytes "http://www.dev.usys.org") () =
      (.ok () (FamilySearch.initState (strToBytes "TestApp/1.0") (strToBytes "KEY")
        (some (strToBytes "SAVED")) (strToBytes "http://www.dev.usys.org")) (), []) ∧
    (FamilySearch.initState (strToBytes "TestApp/1.0") (strToBytes "KEY")
      (some (strToBytes "SAVED")) (strToBytes "http://www.dev.usys.org")).session =
      some (strToBytes "SAVED") :=
  construct_without_credentials okNet okParse (strToBytes "TestApp/1.0") (strToBytes "KEY")
    (some []) (some (strToBytes "x")) (some (strToBytes "SAVED"))
    (strToBytes "http://www.dev.usys.org") () (.inl (by decide))

/-- C3 (amended): for every agent, key and *non-empty* username and
password, constructing the client with both credentials is behaviorally
equivalent — same final state including session and world (cookies),
same raised error, same dispatched requests — to constructing it
without them (which performs no network call) and then calling `login`
with the same arguments, discarding the returned session id. -/
theorem construct_equiv_login {ε W : Type}
    (net : W → FamilySearch.Request → Except ε (W × Bytes))
    (parse : Bytes → Except ε Bytes)
    (a k : Bytes) (sess : Option Bytes) (b : Bytes) (w : W) (u p : Bytes)
    (hu : u ≠ []) (hp : p ≠ []) :
    FamilySearch.construct net parse a k none none sess b w =
      (.ok () (FamilySearch.initState a k sess b) w, []) ∧
    FamilySearch.construct net parse a k (some u) (some p) sess b w =
      (match FamilySearch.login net parse (FamilySearch.initState a k sess b) w u p with
       | (.ok _ fs' w', tr) => (.ok () fs' w', tr)
       | (.err e fs' w', tr) => (.err e fs' w', tr)) := by
  constructor
  · rfl
  · have ht : (FamilySearch.truthy (some u) && FamilySearch.truthy (some p)) = true := by
      simp [FamilySearch.truthy, hu, hp]
    unfold FamilySearch.construct
    rw [if_pos ht]
    rfl

/-- Witness for C3 at non-empty concrete credentials: construction with
them yields the logged-in state that construct-then-login yields. -/
theorem construct_equiv_login_witness :
    FamilySearch.construct okNet okParse (strToBytes "TestApp/1.0") (strToBytes "KEY")
        none none none (strToBytes "http://www.dev.usys.org") () =
      (.ok () (FamilySearch.initState (strToBytes "TestApp/1.0") (strToBytes "KEY")
        none (strToBytes "http://www.dev.usys.org")) (), []) ∧
    FamilySearch.construct okNet okParse (strToBytes "TestApp/1.0") (strToBytes "KEY")
        (some (strToBytes "alice")) (some (strToBytes "secret")) none
        (strToBytes "http://www.dev.usys.org") () =
      (match FamilySearch.login okNet okParse (FamilySearch.initState
          (strToBytes "TestApp/1.0") (strToBytes "KEY") none
          (strToBytes "http://www.dev.usys.org")) () (strToBytes "alice")
          (strToBytes "secret") with
       | (.ok _ fs' w', tr) => (.ok () fs' w', tr)
       | (.err e fs' w', tr) => (.err e fs' w', tr)) :=
  construct_equiv_login okNet okParse (strToBytes "TestApp/1.0") (strToBytes "KEY")
    none (strToBytes "http://www.dev.usys.org") () (strToBytes "alice")
    (strToBytes "secret") (by decide) (by decide)

/-- Counterexample to C3 as literally stated: with the supplied (but
empty) username `""` and password `"x"`, the constructor performs no
login and the session stays `none`, while constructing without
credentials and then calling `login` with the same arguments stores the
parsed session id `S123` — the two are not equivalent. -/
theorem construct_equiv_login_cex :
    ((FamilySearch.construct okNet okParse (strToBytes "TestApp/1.0") (strToBytes "KEY")
        (some []) (some (strToBytes "x")) none
        (strToBytes "http://www.dev.usys.org") ()).1).state.session = none ∧
    ((FamilySearch.login okNet okParse fs0 () [] (strToBytes "x")).1).state.session =
      some (strToBytes "S123") := by
  exact ⟨rfl, by decide⟩
